import Mathlib

set_option maxHeartbeats 1000000

namespace ACB

/-- Model of a Python dict key as it occurs in tool-call argument mappings:
either an integer or a string (the hashable key kinds the metrics code can meet). -/
inductive PyKey where
  | kint (n : Int)
  | kstr (s : String)
deriving DecidableEq, Repr

/-- Model of a Python value occurring in tool-call argument mappings:
integers, strings, None, lists, and dicts (association lists in insertion order;
a real Python dict never holds two equal keys). Floats and booleans are not
needed by any claim and are omitted from the universe. -/
inductive PyVal where
  | vint (n : Int)
  | vstr (s : String)
  | vnone
  | vlist (l : List PyVal)
  | vdict (es : List (PyKey × PyVal))
deriving Repr

/-- Values that `normalized_params` can produce: the scalar atoms pass through,
tuples are built by the normalizers, and raw Python lists/dicts can be embedded
unchanged (agent_metrics' list branch keeps raw elements). -/
inductive NVal where
  | nint (n : Int)
  | nstr (s : String)
  | nnone
  | ntup (l : List NVal)
  | nlist (l : List PyVal)
  | ndict (es : List (PyKey × PyVal))
deriving Repr

theorem sizeOf_lt_of_mem_pyList {v : PyVal} : ∀ {l : List PyVal}, v ∈ l → sizeOf v < sizeOf l := by
  intro l h
  induction l with
  | nil => cases h
  | cons a as ih =>
    rcases List.mem_cons.mp h with rfl | h'
    · simp only [List.cons.sizeOf_spec]; omega
    · have := ih h'; simp only [List.cons.sizeOf_spec]; omega

theorem sizeOf_snd_lt_of_mem_entries {p : PyKey × PyVal} :
    ∀ {es : List (PyKey × PyVal)}, p ∈ es → sizeOf p.2 < sizeOf es := by
  intro es h
  induction es with
  | nil => cases h
  | cons a as ih =>
    rcases List.mem_cons.mp h with rfl | h'
    · obtain ⟨k, v⟩ := p
      simp only [List.cons.sizeOf_spec, Prod.mk.sizeOf_spec]; omega
    · have := ih h'; simp only [List.cons.sizeOf_spec]; omega

/-- Induction principle for `PyVal` whose list cases provide membership-indexed
induction hypotheses. -/
def pyValInd {P : PyVal → Prop}
    (hint : ∀ n, P (.vint n)) (hstr : ∀ s, P (.vstr s)) (hnone : P .vnone)
    (hlist : ∀ l, (∀ v ∈ l, P v) → P (.vlist l))
    (hdict : ∀ es, (∀ p ∈ es, P p.2) → P (.vdict es)) :
    ∀ v, P v
  | .vint n => hint n
  | .vstr s => hstr s
  | .vnone => hnone
  | .vlist l => hlist l (fun v _ => pyValInd hint hstr hnone hlist hdict v)
  | .vdict es => hdict es (fun p _ => pyValInd hint hstr hnone hlist hdict p.2)
termination_by v => sizeOf v
decreasing_by
  · have := sizeOf_lt_of_mem_pyList (by assumption : v ∈ l)
    simp only [PyVal.vlist.sizeOf_spec]; omega
  · have := sizeOf_snd_lt_of_mem_entries (by assumption : p ∈ es)
    simp only [PyVal.vdict.sizeOf_spec]; omega

mutual
def PyVal.beq : PyVal → PyVal → Bool
  | .vint m, .vint n => m == n
  | .vstr s, .vstr t => s == t
  | .vnone, .vnone => true
  | .vlist l, .vlist m => beqPyList l m
  | .vdict d, .vdict e => beqPyEntries d e
  | _, _ => false
def beqPyList : List PyVal → List PyVal → Bool
  | [], [] => true
  | a :: as, b :: bs => PyVal.beq a b && beqPyList as bs
  | _, _ => false
def beqPyEntries : List (PyKey × PyVal) → List (PyKey × PyVal) → Bool
  | [], [] => true
  | (k, v) :: as, (k2, v2) :: bs => k == k2 && PyVal.beq v v2 && beqPyEntries as bs
  | _, _ => false
end

theorem beqPyList_iff (l : List PyVal)
    (ih : ∀ v ∈ l, ∀ b, PyVal.beq v b = true ↔ v = b) :
    ∀ m, beqPyList l m = true ↔ l = m := by
  induction l with
  | nil => intro m; cases m <;> simp [beqPyList]
  | cons a as ihl =>
    intro m
    cases m with
    | nil => simp [beqPyList]
    | cons b bs =>
      have h1 := ih a (List.mem_cons_self a as) b
      have h2 := ihl (fun v hv b => ih v (List.mem_cons_of_mem a hv) b) bs
      simp [beqPyList, h1, h2]

theorem beqPyEntries_iff (es : List (PyKey × PyVal))
    (ih : ∀ p ∈ es, ∀ b, PyVal.beq p.2 b = true ↔ p.2 = b) :
    ∀ fs, beqPyEntries es fs = true ↔ es = fs := by
  induction es with
  | nil => intro fs; cases fs <;> simp [beqPyEntries]
  | cons a as ihl =>
    intro fs
    cases fs with
    | nil => obtain ⟨k, v⟩ := a; simp [beqPyEntries]
    | cons b bs =>
      obtain ⟨k, v⟩ := a
      obtain ⟨k2, v2⟩ := b
      have h1 := ih (k, v) (List.mem_cons_self _ as) v2
      have h2 := ihl (fun p hp b => ih p (List.mem_cons_of_mem _ hp) b) bs
      simp [beqPyEntries, h1, h2, and_assoc]

theorem pyBeq_iff : ∀ a b : PyVal, PyVal.beq a b = true ↔ a = b := by
  intro a
  induction a using pyValInd with
  | hint n => intro b; cases b <;> simp [PyVal.beq]
  | hstr s => intro b; cases b <;> simp [PyVal.beq]
  | hnone => intro b; cases b <;> simp [PyVal.beq]
  | hlist l ih =>
    intro b
    cases b <;> simp only [PyVal.beq, Bool.false_eq_true, false_iff] <;>
      try exact fun h => PyVal.noConfusion h
    rename_i m
    rw [beqPyList_iff l ih m]
    constructor
    · intro h; rw [h]
    · intro h; cases h; rfl
  | hdict es ih =>
    intro b
    cases b <;> simp only [PyVal.beq, Bool.false_eq_true, false_iff] <;>
      try exact fun h => PyVal.noConfusion h
    rename_i fs
    rw [beqPyEntries_iff es ih fs]
    constructor
    · intro h; rw [h]
    · intro h; cases h; rfl

instance : DecidableEq PyVal := fun a b => decidable_of_iff _ (pyBeq_iff a b)

theorem sizeOf_lt_of_mem_nList {v : NVal} : ∀ {l : List NVal}, v ∈ l → sizeOf v < sizeOf l := by
  intro l h
  induction l with
  | nil => cases h
  | cons a as ih =>
    rcases List.mem_cons.mp h with rfl | h'
    · simp only [List.cons.sizeOf_spec]; omega
    · have := ih h'; simp only [List.cons.sizeOf_spec]; omega

/-- Induction principle for `NVal` whose tuple case provides membership-indexed
induction hypotheses. -/
def nValInd {P : NVal → Prop}
    (hint : ∀ n, P (.nint n)) (hstr : ∀ s, P (.nstr s)) (hnone : P .nnone)
    (htup : ∀ l, (∀ v ∈ l, P v) → P (.ntup l))
    (hlist : ∀ l, P (.nlist l)) (hdict : ∀ es, P (.ndict es)) :
    ∀ v, P v
  | .nint n => hint n
  | .nstr s => hstr s
  | .nnone => hnone
  | .ntup l => htup l (fun v _ => nValInd hint hstr hnone htup hlist hdict v)
  | .nlist l => hlist l
  | .ndict es => hdict es
termination_by v => sizeOf v
decreasing_by
  · have := sizeOf_lt_of_mem_nList (by assumption : v ∈ l)
    simp only [NVal.ntup.sizeOf_spec]; omega

mutual
def NVal.beq : NVal → NVal → Bool
  | .nint m, .nint n => m == n
  | .nstr s, .nstr t => s == t
  | .nnone, .nnone => true
  | .ntup l, .ntup m => beqNTup l m
  | .nlist l, .nlist m => decide (l = m)
  | .ndict d, .ndict e => decide (d = e)
  | _, _ => false
def beqNTup : List NVal → List NVal → Bool
  | [], [] => true
  | a :: as, b :: bs => NVal.beq a b && beqNTup as bs
  | _, _ => false
end

theorem beqNTup_iff (l : List NVal)
    (ih : ∀ v ∈ l, ∀ b, NVal.beq v b = true ↔ v = b) :
    ∀ m, beqNTup l m = true ↔ l = m := by
  induction l with
  | nil => intro m; cases m <;> simp [beqNTup]
  | cons a as ihl =>
    intro m
    cases m with
    | nil => simp [beqNTup]
    | cons b bs =>
      have h1 := ih a (List.mem_cons_self a as) b
      have h2 := ihl (fun v hv b => ih v (List.mem_cons_of_mem a hv) b) bs
      simp [beqNTup, h1, h2]

theorem nBeq_iff : ∀ a b : NVal, NVal.beq a b = true ↔ a = b := by
  intro a
  induction a using nValInd with
  | hint n => intro b; cases b <;> simp [NVal.beq]
  | hstr s => intro b; cases b <;> simp [NVal.beq]
  | hnone => intro b; cases b <;> simp [NVal.beq]
  | htup l ih =>
    intro b
    cases b <;> simp only [NVal.beq, Bool.false_eq_true, false_iff] <;>
      try exact fun h => NVal.noConfusion h
    rename_i m
    rw [beqNTup_iff l ih m]
    constructor
    · intro h; rw [h]
    · intro h; cases h; rfl
  | hlist l => intro b; cases b <;> simp [NVal.beq]
  | hdict es => intro b; cases b <;> simp [NVal.beq]

instance : DecidableEq NVal := fun a b => decidable_of_iff _ (nBeq_iff a b)

/-- Python `repr` of a dict key (string keys render between single quotes). -/
def PyKey.pyRepr : PyKey → String
  | .kint n => toString n
  | .kstr s => "\x27" ++ s ++ "\x27"

mutual
/-- Python `repr` of a value (containers render their elements with `repr`). -/
def pyRepr : PyVal → String
  | .vint n => toString n
  | .vstr s => "\x27" ++ s ++ "\x27"
  | .vnone => "None"
  | .vlist l => "[" ++ String.intercalate ", " (pyReprList l) ++ "]"
  | .vdict es => "\x7b" ++ String.intercalate ", " (pyReprEntries es) ++ "\x7d"
def pyReprList : List PyVal → List String
  | [] => []
  | v :: vs => pyRepr v :: pyReprList vs
def pyReprEntries : List (PyKey × PyVal) → List String
  | [] => []
  | (k, v) :: es => (PyKey.pyRepr k ++ ": " ++ pyRepr v) :: pyReprEntries es
end

/-- Python `str` of a value: identical to `repr` except that a string renders as
its own characters without quotes. -/
def pyStr : PyVal → String
  | .vstr s => s
  | v => pyRepr v

/-- Python comparison of two dict keys, `none` meaning the comparison raises
`TypeError` (an int key and a str key are not orderable). -/
def keyCompare : PyKey → PyKey → Option Ordering
  | .kint m, .kint n => some (if m < n then .lt else if n < m then .gt else .eq)
  | .kstr s, .kstr t => some (if s < t then .lt else if t < s then .gt else .eq)
  | _, _ => none

/-- Three-way comparison of two linearly ordered values: the branch structure
Python evaluates for a pair of ints or a pair of strings. -/
def cmp3 {α : Type} [LinearOrder α] (a b : α) : Ordering :=
  if a < b then .lt else if b < a then .gt else .eq

/-- Lexicographic comparison of two lists of strings: the comparison Python
performs between the string tuples that tcrr's list branch makes of nested
lists. It is total, because strings are totally ordered. -/
def strListCmp : List String → List String → Ordering
  | [], [] => .eq
  | [], _ :: _ => .lt
  | _ :: _, [] => .gt
  | s :: ss, t :: ts => if s = t then strListCmp ss ts else cmp3 s t

mutual
/-- Python comparison of two raw values, `none` meaning `TypeError`: ints with
ints, strings with strings, lists with lists lexicographically (scanning with
`==` and comparing the first unequal elements); everything else, including
`None` with anything and any cross-type pair, raises. -/
def pyCompare : PyVal → PyVal → Option Ordering
  | .vint m, .vint n => some (if m < n then .lt else if n < m then .gt else .eq)
  | .vstr s, .vstr t => some (if s < t then .lt else if t < s then .gt else .eq)
  | .vlist l, .vlist m => pyCompareList l m
  | _, _ => none
def pyCompareList : List PyVal → List PyVal → Option Ordering
  | [], [] => some .eq
  | [], _ :: _ => some .lt
  | _ :: _, [] => some .gt
  | x :: xs, y :: ys => if x = y then pyCompareList xs ys else pyCompare x y
end

mutual
/-- Python comparison of two normalized values (used when sorting the
normalized list inside tcrr's list branch): atoms as in `pyCompare`, tuples
lexicographically, embedded raw lists via `pyCompare`, everything else raises. -/
def nvalCompare : NVal → NVal → Option Ordering
  | .nint m, .nint n => some (if m < n then .lt else if n < m then .gt else .eq)
  | .nstr s, .nstr t => some (if s < t then .lt else if t < s then .gt else .eq)
  | .ntup l, .ntup m => nvalCompareList l m
  | .nlist l, .nlist m => pyCompareList l m
  | _, _ => none
def nvalCompareList : List NVal → List NVal → Option Ordering
  | [], [] => some .eq
  | [], _ :: _ => some .lt
  | _ :: _, [] => some .gt
  | x :: xs, y :: ys => if x = y then nvalCompareList xs ys else nvalCompare x y
end

/-- Boolean less-or-equal derived from a partial comparison; on pairs the
comparison cannot order it is vacuously true (sorting only uses it on lists
whose elements are pairwise comparable). -/
def leOfCompare (cmp : α → α → Option Ordering) (a b : α) : Bool :=
  match cmp a b with
  | some .gt => false
  | _ => true

/-- Insertion step of insertion sort with a boolean relation. -/
def insertLe (le : α → α → Bool) (a : α) : List α → List α
  | [] => [a]
  | b :: bs => if le a b then a :: b :: bs else b :: insertLe le a bs

/-- Insertion sort with a boolean relation; with a total order on the list
elements it produces the unique sorted arrangement, which is what Python
`sorted` returns as well. -/
def sortLe (le : α → α → Bool) : List α → List α
  | [] => []
  | a :: as => insertLe le a (sortLe le as)

/-- Pairwise comparability of a list under a partial comparison: this models
the condition under which Python `sorted` succeeds rather than raising
`TypeError`. -/
def MutOrd (cmp : α → α → Option Ordering) (l : List α) : Prop :=
  List.Pairwise (fun a b => (cmp a b).isSome) l

instance {cmp : α → α → Option Ordering} {l : List α} : Decidable (MutOrd cmp l) := by
  unfold MutOrd; infer_instance

/-- Model of Python `sorted` over a partial comparison: the sorted list when
all elements are pairwise comparable, `none` (TypeError) otherwise. -/
def pySorted (cmp : α → α → Option Ordering) (l : List α) : Option (List α) :=
  if MutOrd cmp l then some (sortLe (leOfCompare cmp) l) else none

/-- View of a dict key as a normalized value (keys pass through unchanged into
the canonical tuples). -/
def keyNVal : PyKey → NVal
  | .kint n => .nint n
  | .kstr s => .nstr s

/-- A raw Python value seen as a normalized value: scalars are atoms, lists and
dicts are embedded unchanged. -/
def embed : PyVal → NVal
  | .vint n => .nint n
  | .vstr s => .nstr s
  | .vnone => .nnone
  | .vlist l => .nlist l
  | .vdict es => .ndict es

/-- Ordering of normalized dict entries by their key, as produced by Python
`sorted(params.items())` (the keys of a dict are distinct, so item comparison
never reaches the values). -/
def entryLeKey (p q : PyKey × NVal) : Bool := leOfCompare keyCompare p.1 q.1

/-- Pairwise comparability of the keys of a dict: the condition under which
Python `sorted(params.items())` succeeds instead of raising `TypeError`. -/
def KeysOrd (es : List (PyKey × PyVal)) : Prop :=
  List.Pairwise (fun p q => (keyCompare p.1 q.1).isSome) es

instance {es : List (PyKey × PyVal)} : Decidable (KeysOrd es) := by
  unfold KeysOrd; infer_instance

/-- The entry tuple `(k, v)` of the canonical output. -/
def entryTup (p : PyKey × NVal) : NVal := .ntup [keyNVal p.1, p.2]

/-- Fallback used by both list branches when sorting raises: the tuple of the
`str` renderings of the original list elements, in their original order. -/
def strFallback (items : List PyVal) : List NVal :=
  items.map (fun i => .nstr (pyStr i))

/-- The list branch of agent_metrics' `normalized_params`: `tuple(sorted(v))`
over the raw elements, falling back to their `str` renderings on `TypeError`. -/
def amListBranch (items : List PyVal) : NVal :=
  match pySorted pyCompare items with
  | some s => .ntup (s.map embed)
  | none => .ntup (strFallback items)

/-- Post-processing shared by every dict normalization: sort the normalized
entries by key and build the tuple of entry tuples. The source sorts the raw
items first and then normalizes each value in sorted order; since item
comparison reads only the keys (dict keys are distinct) and values are
normalized independently of each other, normalizing the values first and then
sorting the normalized entries computes the same function. -/
def dictWrap (o : Option (List (PyKey × NVal))) : Option NVal :=
  o.map (fun nes => .ntup ((sortLe entryLeKey nes).map entryTup))

mutual
/-- Normalization of the dict entry values of tcrr's `normalized_params`, in
order, propagating exceptions (`none`). -/
def tcrrEntriesNorm : List (PyKey × PyVal) → Option (List (PyKey × NVal))
  | [] => some []
  | (k, v) :: es =>
    match tcrrValNorm v with
    | none => none
    | some nv =>
      match tcrrEntriesNorm es with
      | none => none
      | some rest => some ((k, nv) :: rest)
/-- Normalization of a single dict value in tcrr's `normalized_params`: a dict
value goes through the recursive call (key sort, entry normalization, wrap), a
list value goes through the list branch (which never raises), scalars pass
through. -/
def tcrrValNorm : PyVal → Option NVal
  | .vdict es => if KeysOrd es then dictWrap (tcrrEntriesNorm es) else none
  | .vlist items =>
    some (match tcrrItemsNorm items with
      | some nitems =>
        match pySorted nvalCompare nitems with
        | some s => NVal.ntup s
        | none => NVal.ntup (strFallback items)
      | none => NVal.ntup (strFallback items))
  | v => some (embed v)
/-- Normalization of the elements of a list value in tcrr's list branch,
`none` when some element raises `TypeError` (which the list branch catches). -/
def tcrrItemsNorm : List PyVal → Option (List NVal)
  | [] => some []
  | i :: is =>
    match tcrrItemNorm i with
    | none => none
    | some n =>
      match tcrrItemsNorm is with
      | none => none
      | some ns => some (n :: ns)
/-- Normalization of one list element inside tcrr's list branch: a dict
element is normalized recursively, a nested list becomes the tuple of the
`str` renderings of its elements, scalars pass through. -/
def tcrrItemNorm : PyVal → Option NVal
  | .vdict es => if KeysOrd es then dictWrap (tcrrEntriesNorm es) else none
  | .vlist sub => some (.ntup (sub.map (fun x => .nstr (pyStr x))))
  | v => some (embed v)
end

/-- Embedding of `normalized_params` from `src/src/tau2/metrics/tcrr.py`
(lines 48-70). `none` models a raised exception: `params.items()` on a
non-dict raises `AttributeError`, and `sorted(params.items())` raises
`TypeError` when the keys are not mutually orderable; only the list branch
catches exceptions (its `except TypeError` falls back to stringified
elements). -/
def tcrrNP : PyVal → Option NVal
  | .vdict es => if KeysOrd es then dictWrap (tcrrEntriesNorm es) else none
  | _ => none

/-- The list branch of tcrr's `normalized_params`, as a standalone function:
normalize the elements, sort them, and fall back to the `str` renderings of
the original elements if anything in the `try` block raises `TypeError`. -/
def tcrrListBranch (items : List PyVal) : NVal :=
  match tcrrItemsNorm items with
  | some nitems =>
    match pySorted nvalCompare nitems with
    | some s => .ntup s
    | none => .ntup (strFallback items)
  | none => .ntup (strFallback items)

/-- The normalized value of one list element in tcrr's list branch, as a total
function (the default is never reached on elements whose normalization
succeeds). -/
def tcrrItemVal (v : PyVal) : NVal := (tcrrItemNorm v).getD .nnone

mutual
/-- Normalization of the dict entry values of agent_metrics'
`normalized_params`, in order, propagating exceptions (`none`). -/
def amEntriesNorm : List (PyKey × PyVal) → Option (List (PyKey × NVal))
  | [] => some []
  | (k, v) :: es =>
    match amValNorm v with
    | none => none
    | some nv =>
      match amEntriesNorm es with
      | none => none
      | some rest => some ((k, nv) :: rest)
/-- Normalization of a single dict value in agent_metrics' version: dicts
recurse, lists are sorted raw (with the `str` fallback on `TypeError`),
scalars pass through. -/
def amValNorm : PyVal → Option NVal
  | .vdict es => if KeysOrd es then dictWrap (amEntriesNorm es) else none
  | .vlist items => some (amListBranch items)
  | v => some (embed v)
end

/-- Embedding of `normalized_params` from `src/src/tau2/metrics/agent_metrics.py`
(lines 32-49). A non-dict argument returns its `str` rendering; dict keys that
are not mutually orderable make `sorted(params.items())` raise `TypeError`
(`none`); the list branch sorts the raw elements and catches only its own
`TypeError`. -/
def amNP : PyVal → Option NVal
  | .vdict es => if KeysOrd es then dictWrap (amEntriesNorm es) else none
  | v => some (.nstr (pyStr v))

/-- A tool call as carried by an assistant or user message: identifier, tool
name, and argument mapping. -/
structure PyToolCall where
  id : String
  name : String
  arguments : PyVal
deriving DecidableEq, Repr

/-- Model of a tau2 message as far as the metrics code inspects it: assistant
and user messages may carry tool calls (plus an optional `turn_idx` and cost),
tool messages carry one result (id, error flag, content), and system messages
carry nothing the extractors look at. -/
inductive Msg where
  | assistant (turn_idx : Option Nat) (cost : Option ℚ) (tool_calls : List PyToolCall)
  | user (turn_idx : Option Nat) (cost : Option ℚ) (tool_calls : List PyToolCall)
  | tool (id : String) (error : Bool) (content : Option String)
  | system
deriving DecidableEq

/-- The `tool_calls` attribute as the extractors read it (`hasattr` plus
truthiness): assistant and user messages expose their list, other messages
none. -/
def msgToolCalls : Msg → List PyToolCall
  | .assistant _ _ tcs => tcs
  | .user _ _ tcs => tcs
  | _ => []

/-- The `turn_idx` attribute of a call-carrying message. -/
def msgTurnIdx : Msg → Option Nat
  | .assistant t _ _ => t
  | .user t _ _ => t
  | _ => none

/-- The `cost` attribute of a call-carrying message. -/
def msgCost : Msg → Option ℚ
  | .assistant _ c _ => c
  | .user _ c _ => c
  | _ => none

/-- Whether a message is an assistant message (`isinstance(msg, AssistantMessage)`). -/
def isAssistant : Msg → Bool
  | .assistant _ _ _ => true
  | _ => false

/-- The tool-result entries in transcript order: `(id, (error, content))` for
every tool message. -/
def toolResultEntries (msgs : List Msg) : List (String × (Bool × Option String)) :=
  msgs.foldr
    (fun m acc =>
      match m with
      | .tool i e c => (i, (e, c)) :: acc
      | _ => acc) []

/-- Lookup of the result correlated to a call id. The extractors build a dict
keyed by tool-message id, so a later message with the same id overwrites an
earlier one; looking the reversed entry list up from the front returns the
last write. -/
def lookupToolResult (msgs : List Msg) (i : String) : Option (Bool × Option String) :=
  (toolResultEntries msgs).reverse.lookup i

/-- The fixed keyword vocabulary both extractors scan error content for. -/
def paramErrorKeywords : List String :=
  ["invalid parameter", "missing parameter", "parameter error",
   "bad parameter", "invalid argument", "missing argument"]

/-- Lower-casing of a string, modelling Python `str.lower()` on the error
content (the keywords themselves are already lower case). -/
def toLowerStr (s : String) : String := ⟨s.data.map Char.toLower⟩

/-- Whether the first character list is a leading segment of the second. -/
def charsLead : List Char → List Char → Bool
  | [], _ => true
  | _ :: _, [] => false
  | a :: as, b :: bs => a == b && charsLead as bs

/-- Whether the first character list occurs contiguously inside the second
(Python's `needle in hay` on strings). -/
def charsContains (needle : List Char) : List Char → Bool
  | [] => charsLead needle []
  | h :: hs => charsLead needle (h :: hs) || charsContains needle hs

/-- Python `needle in hay` for strings. -/
def strContains (hay needle : String) : Bool := charsContains needle.data hay.data

/-- Python truthiness of the `content` field: present and a non-empty string. -/
def contentTruthy : Option String → Bool
  | none => false
  | some s => !(s == "")

/-- The correctness and parameter-validity flags both extractors assign to a
call: correctness is the correlated result's success flag (not error) when a
result exists, else true; parameter validity is false only when the correlated
result is an error with truthy content containing one of the fixed keywords
case-insensitively. -/
def resultFlags (msgs : List Msg) (callId : String) : Bool × Bool :=
  match lookupToolResult msgs callId with
  | none => (true, true)
  | some (err, content) =>
    let correct := !err
    let pv :=
      if err && contentTruthy content then
        !(paramErrorKeywords.any (fun kw => strContains (toLowerStr (content.getD "")) kw))
      else true
    (correct, pv)

/-- The per-call record built by `extract_tool_calls_with_turns`
(`ToolCallInfo` in tcrr.py). -/
structure ToolCallInfo where
  name : String
  params : PyVal
  turn_idx : Nat
  assistant_turn_idx : Nat
  call_id : String
  correct : Bool
  params_valid : Bool
deriving DecidableEq

/-- Construction of one `ToolCallInfo` from a call attached to message `m`
while the assistant-turn counter reads `count`. -/
def mkInfo (allMsgs : List Msg) (m : Msg) (count : Nat) (tc : PyToolCall) : ToolCallInfo :=
  let flags := resultFlags allMsgs tc.id
  { name := tc.name
    params := tc.arguments
    turn_idx := (msgTurnIdx m).getD 0
    assistant_turn_idx := count
    call_id := tc.id
    correct := flags.1
    params_valid := flags.2 }

/-- The scanning loop of `extract_tool_calls_with_turns`: the counter is
incremented when an assistant message is seen, before that same message's
calls are stamped. -/
def extractAux (allMsgs : List Msg) : Nat → List Msg → List ToolCallInfo
  | _, [] => []
  | count, m :: rest =>
    let count2 := if isAssistant m then count + 1 else count
    ((msgToolCalls m).map (mkInfo allMsgs m count2)) ++ extractAux allMsgs count2 rest

/-- Embedding of `extract_tool_calls_with_turns` from
`src/src/tau2/metrics/tcrr.py` (lines 73-125). -/
def extract_tool_calls_with_turns (msgs : List Msg) : List ToolCallInfo :=
  extractAux msgs 0 msgs

/-- The per-call record built by `extract_tool_calls_from_messages` in
agent_metrics.py (a dict with name, params, cost, latency, correct,
params_valid; the latency computation in the source is a stub that always
leaves 0.0). -/
structure ToolCallMetric where
  name : String
  params : PyVal
  cost : ℚ
  latency : ℚ
  correct : Bool
  params_valid : Bool
deriving DecidableEq

/-- Construction of one `ToolCallMetric` from a call attached to message `m`. -/
def mkMetric (allMsgs : List Msg) (m : Msg) (tc : PyToolCall) : ToolCallMetric :=
  let flags := resultFlags allMsgs tc.id
  { name := tc.name
    params := tc.arguments
    cost := (msgCost m).getD 0
    latency := 0
    correct := flags.1
    params_valid := flags.2 }

/-- The scanning loop of `extract_tool_calls_from_messages` (no turn counter). -/
def amExtractAux (allMsgs : List Msg) : List Msg → List ToolCallMetric
  | [] => []
  | m :: rest => ((msgToolCalls m).map (mkMetric allMsgs m)) ++ amExtractAux allMsgs rest

/-- Embedding of `extract_tool_calls_from_messages` from
`src/src/tau2/metrics/agent_metrics.py` (lines 52-125). -/
def extract_tool_calls_from_messages (msgs : List Msg) : List ToolCallMetric :=
  amExtractAux msgs msgs

/-- Result record of the TCRR computation (`TCRRResult` in tcrr.py); the
field `redundancy_rate` carries the source's `redundancy_ratio`. -/
structure TCRRResult where
  total_calls : Nat
  redundant_calls : Int
  redundancy_rate : ℚ
  redundant_by_turn : List (Nat × Int)
  window_size : Int
  window_redundant_calls : Nat
  batch_redundant_calls : Int
deriving DecidableEq

/-- The canonical identity `(name, normalized params)` of a call, with the
call-site fallback `(name, str(params))` when normalization raises (the
try/except inside `compute_tcrr_windowed`). -/
def identityOf (c : ToolCallInfo) : String × NVal :=
  match tcrrNP c.params with
  | some n => (c.name, n)
  | none => (c.name, .nstr (pyStr c.params))

/-- The calls grouped into one assistant turn, in input order. -/
def callsInTurn (calls : List ToolCallInfo) (t : Nat) : List ToolCallInfo :=
  calls.filter (fun c => c.assistant_turn_idx == t)

/-- Deduplication keeping first occurrences (Python dict-key insertion order). -/
def dedupFirst [DecidableEq α] (l : List α) : List α :=
  l.foldl (fun acc x => if x ∈ acc then acc else acc ++ [x]) []

/-- The distinct assistant-turn indices of the calls, ascending
(`sorted(calls_by_turn.keys())`). -/
def sortedTurns (calls : List ToolCallInfo) : List Nat :=
  sortLe (fun a b => decide (a ≤ b)) (dedupFirst (calls.map (fun c => c.assistant_turn_idx)))

/-- One iteration of the turn loop of `compute_tcrr_windowed`: the accumulator
carries (window_redundant_calls, batch_redundant_calls, redundant_by_turn).
The source iterates `range(window_start, current_turn)` and keeps the turns
present in `calls_by_turn`; filtering the ascending key list by the same
bounds visits the same turns in the same order. -/
def turnStep (calls : List ToolCallInfo) (allTurns : List Nat)
    (window_size batch_threshold : Int)
    (acc : Nat × Int × List (Nat × Int)) (t : Nat) : Nat × Int × List (Nat × Int) :=
  let current := callsInTurn calls t
  let wstart : Int := max 1 ((t : Int) - window_size)
  let previous := (allTurns.filter
      (fun (p : Nat) => decide (wstart ≤ (p : Int)) && decide ((p : Int) < (t : Int)))).flatMap
    (callsInTurn calls)
  let prevIdents := previous.map identityOf
  let wcount := (current.filter (fun c => decide (identityOf c ∈ prevIdents))).length
  let idents := dedupFirst (current.map identityOf)
  let bexcess := idents.foldl
    (fun s idn =>
      let cnt := (current.filter (fun c => decide (identityOf c = idn))).length
      if batch_threshold < (cnt : Int) then s + ((cnt : Int) - batch_threshold) else s) 0
  (acc.1 + wcount, acc.2.1 + bexcess, acc.2.2 ++ [(t, (wcount : Int) + bexcess)])

/-- Embedding of `compute_tcrr_windowed` from `src/src/tau2/metrics/tcrr.py`
(lines 128-232). -/
def compute_tcrr_windowed (tool_calls : List ToolCallInfo)
    (window_size batch_threshold : Int) : TCRRResult :=
  if tool_calls.isEmpty then
    { total_calls := 0
      redundant_calls := 0
      redundancy_rate := 0
      redundant_by_turn := []
      window_size := window_size
      window_redundant_calls := 0
      batch_redundant_calls := 0 }
  else
    let turns := sortedTurns tool_calls
    let acc := turns.foldl (turnStep tool_calls turns window_size batch_threshold) (0, 0, [])
    let redundant : Int := (acc.1 : Int) + acc.2.1
    { total_calls := tool_calls.length
      redundant_calls := redundant
      redundancy_rate := (redundant : ℚ) / (tool_calls.length : ℚ)
      redundant_by_turn := acc.2.2
      window_size := window_size
      window_redundant_calls := acc.1
      batch_redundant_calls := acc.2.1 }

/-- Embedding of `pass_hat_k` from `src/src/tau2/metrics/agent_metrics.py`
(lines 217-230): raises `ValueError` (modelled as `none`) when
`num_trials < k`, else returns `C(success_count, k) / C(num_trials, k)`. -/
def pass_hat_k (num_trials success_count k : Nat) : Option ℚ :=
  if num_trials < k then none
  else some ((Nat.choose success_count k : ℚ) / (Nat.choose num_trials k : ℚ))

/-- Embedding of `is_successful` from `src/src/tau2/metrics/agent_metrics.py`
(lines 15-19). -/
def is_successful (reward : ℚ) : Bool :=
  decide ((1 - 1 / 1000000 : ℚ) ≤ reward) && decide (reward ≤ (1 + 1 / 1000000 : ℚ))

/-- Embedding of `safe_float` on its optional-number fragment: `None` becomes
the 0.0 default. -/
def safe_float (v : Option ℚ) : ℚ := v.getD 0

/-- The reward-bearing object attached to a simulation run. -/
structure RewardInfo where
  reward : Option ℚ
deriving DecidableEq

/-- A simulation run as far as the claimed code paths read it. -/
structure SimRun where
  task_id : String
  messages : List Msg
  reward_info : Option RewardInfo
  agent_cost : Option ℚ
deriving DecidableEq

/-- The per-run success test of the simple TSR fallback in `compute_metrics`:
`sim.reward_info and safe_float(sim.reward_info.reward) > 0`. -/
def simHasPositiveReward (s : SimRun) : Bool :=
  match s.reward_info with
  | some ri => decide (0 < safe_float ri.reward)
  | none => false

/-- The fields of the enhanced TSR result that `compute_metrics` consumes. -/
structure TSREnhancedResult where
  overall_tsr : ℚ
  communicate_info : ℚ
  action : ℚ
  nl_assertion : ℚ
  weights : List (String × ℚ)
deriving DecidableEq

/-- The TSR-related fields of the metrics report. -/
structure TsrSlice where
  tsr : ℚ
  tsr_communicate_info : ℚ
  tsr_action : ℚ
  tsr_nl_assertion : ℚ
  tsr_weights : List (String × ℚ)
deriving DecidableEq

/-- The default channel weights reported by the fallback branch. -/
def default_tsr_weights : List (String × ℚ) :=
  [("communicate_info", 1 / 2), ("action", 3 / 10), ("nl_assertion", 1 / 5)]

/-- Modelled from the spec: the enhanced TSR estimator `compute_tsr_enhanced`
lives in `tau2.metrics.tsr`, which is not among the sources; `compute_metrics`
only consumes its outcome, so its outcome (a result, or `none` when it
raises) is a parameter here. The body is the TSR try/except block of
`compute_metrics` (`src/src/tau2/metrics/agent_metrics.py` lines 542-564):
on failure the reported TSR is the binary-success rate, the channel
breakdowns are zero and the weights are the defaults, and the exception is
swallowed so the surrounding computation continues normally. -/
def computeMetricsTsrSlice (primary : Option TSREnhancedResult) (sims : List SimRun) :
    TsrSlice :=
  match primary with
  | some r =>
    { tsr := r.overall_tsr
      tsr_communicate_info := r.communicate_info
      tsr_action := r.action
      tsr_nl_assertion := r.nl_assertion
      tsr_weights := r.weights }
  | none =>
    let success_count := (sims.filter simHasPositiveReward).length
    { tsr := if sims.isEmpty then 0 else (success_count : ℚ) / (sims.length : ℚ)
      tsr_communicate_info := 0
      tsr_action := 0
      tsr_nl_assertion := 0
      tsr_weights := default_tsr_weights }

/-- Stated from the spec's words, for comparison with the code: the
binary-success fallback is the number of simulation runs whose reward is
strictly positive divided by the number of runs, and 0 when there are no
runs. -/
def specBinaryTSR (sims : List SimRun) : ℚ :=
  if sims.length = 0 then 0
  else ((sims.filter simHasPositiveReward).length : ℚ) / (sims.length : ℚ)

/-- Arguments used by the concrete TCRR examples: one string-keyed mapping. -/
def exampleArgs : PyVal := .vdict [(.kstr "account", .vstr "c123")]

/-- A `get_balance` call with `exampleArgs` placed in assistant turn `t`. -/
def exampleCall (t : Nat) (cid : String) : ToolCallInfo :=
  { name := "get_balance"
    params := exampleArgs
    turn_idx := t
    assistant_turn_idx := t
    call_id := cid
    correct := true
    params_valid := true }

mutual
/-- Transparent characterization of when normalizing a dict VALUE raises, for
both implementations: only a dict value can raise, and it raises exactly when
its keys are not mutually orderable or some of its own dict values raises
(list values never raise, their failures are caught by the list branch). -/
def valRaiseB : PyVal → Bool
  | .vdict es => !(decide (KeysOrd es)) || entriesRaiseB es
  | _ => false
/-- Whether some entry value of a dict raises during normalization. -/
def entriesRaiseB : List (PyKey × PyVal) → Bool
  | [] => false
  | (_, v) :: es => valRaiseB v || entriesRaiseB es
end

/-- Transparent characterization of when tcrr's `normalized_params` raises: on
every non-mapping input (`params.items()` fails), and on a mapping exactly
when its keys are not mutually orderable or one of its dict values raises. -/
def tcrrRaisesB : PyVal → Bool
  | .vdict es => !(decide (KeysOrd es)) || entriesRaiseB es
  | _ => true

/-- Transparent characterization of when agent_metrics' `normalized_params`
raises: never on a non-mapping input (it returns `str(params)`), and on a
mapping exactly as tcrr's version does. -/
def amRaisesB : PyVal → Bool
  | .vdict es => !(decide (KeysOrd es)) || entriesRaiseB es
  | _ => false

/-- The calls of one message, stamped with the assistant-turn counter value `c`. -/
def stampMsg (allMsgs : List Msg) (m : Msg) (c : Nat) : List ToolCallInfo :=
  (msgToolCalls m).map (mkInfo allMsgs m c)

/-- The number of assistant messages in a message list. -/
def assistantCount (msgs : List Msg) : Nat := (msgs.filter isAssistant).length

/-- The calls contributed by position `i` of `rest`, stamped with `base` plus
the number of assistant messages in the prefix of `rest` up to and including
position `i`. -/
def stampAt (allMsgs rest : List Msg) (base i : Nat) : List ToolCallInfo :=
  match rest[i]? with
  | some m => stampMsg allMsgs m (base + assistantCount (rest.take (i + 1)))
  | none => []

/-- Closed form of the extractor stated the way the spec describes the
counter: the calls of the message at each position, stamped with the count of
assistant messages in the transcript prefix up to and including that message
(so the counter starts at 0, is incremented by exactly 1 on each assistant
message before its own calls are stamped, a call before any assistant message
gets 0, and calls attached to the first assistant message get 1). -/
def turnsClosedForm (msgs : List Msg) : List ToolCallInfo :=
  (List.range msgs.length).flatMap (stampAt msgs msgs 0)

/-- The claim's formula for the correctness flag: the correlated result's
success flag (not error) when a result with matching id exists, true when
none exists. -/
def expectedCorrect (msgs : List Msg) (cid : String) : Bool :=
  match lookupToolResult msgs cid with
  | none => true
  | some (err, _) => !err

/-- The claim's formula for the parameter-validity flag: false exactly when
the correlated result exists, is an error, and its content contains one of
the six fixed keywords case-insensitively; true otherwise (also when no
result exists). -/
def expectedParamsValid (msgs : List Msg) (cid : String) : Bool :=
  match lookupToolResult msgs cid with
  | none => true
  | some (err, content) =>
    !(err && paramErrorKeywords.any (fun kw => strContains (toLowerStr (content.getD "")) kw))

/-- The (message, tool call) pairs of a transcript in scan order; both
extractors emit exactly one record per pair. -/
def msgCallPairs (msgs : List Msg) : List (Msg × PyToolCall) :=
  msgs.flatMap (fun m => (msgToolCalls m).map (fun tc => (m, tc)))

/-- Whether a value is a scalar (int, string, or None). -/
def isScalar : PyVal → Bool
  | .vint _ => true
  | .vstr _ => true
  | .vnone => true
  | _ => false

mutual
/-- The claim's permutation relation, stated from the spec's words: `b` is
obtained from `a` by permuting the keys of a mapping and/or reordering any
mutually-orderable list value, at any nesting depth (closed under congruence
and composition). -/
inductive SpecPerm : PyVal → PyVal → Prop
  | refl (v : PyVal) : SpecPerm v v
  | dictKeys (es es2 : List (PyKey × PyVal)) :
      List.Perm es es2 → SpecPerm (.vdict es) (.vdict es2)
  | dictCongr (es es2 : List (PyKey × PyVal)) :
      SpecEntries es es2 → SpecPerm (.vdict es) (.vdict es2)
  | listCongr (l l2 : List PyVal) :
      SpecList l l2 → SpecPerm (.vlist l) (.vlist l2)
  | listReorder (l l2 : List PyVal) :
      MutOrd pyCompare l → List.Perm l l2 → SpecPerm (.vlist l) (.vlist l2)
  | trans {a b c : PyVal} : SpecPerm a b → SpecPerm b c → SpecPerm a c
/-- Entrywise congruence of entry lists under `SpecPerm`. -/
inductive SpecEntries : List (PyKey × PyVal) → List (PyKey × PyVal) → Prop
  | nil : SpecEntries [] []
  | cons (k : PyKey) (v v2 : PyVal) (es es2 : List (PyKey × PyVal)) :
      SpecPerm v v2 → SpecEntries es es2 →
      SpecEntries ((k, v) :: es) ((k, v2) :: es2)
/-- Elementwise congruence of lists under `SpecPerm`. -/
inductive SpecList : List PyVal → List PyVal → Prop
  | nil : SpecList [] []
  | cons (v v2 : PyVal) (l l2 : List PyVal) :
      SpecPerm v v2 → SpecList l l2 → SpecList (v :: l) (v2 :: l2)
end

mutual
/-- The invariance domain that both implementations do honor: permuting the
entries of a mapping (recursively through mapping values), and reordering a
list value whose elements are mutually orderable under Python comparison
(which forces them to be all ints, all strings, or pairwise-comparable lists,
scalar or not) and which sits directly under a mapping; everything else must
stay unchanged. -/
inductive SafePerm : PyVal → PyVal → Prop
  | refl (v : PyVal) : SafePerm v v
  | dict (es mid es2 : List (PyKey × PyVal)) :
      SafeEntries es mid → List.Perm mid es2 → SafePerm (.vdict es) (.vdict es2)
  | slist (l l2 : List PyVal) :
      MutOrd pyCompare l → List.Perm l l2 →
      SafePerm (.vlist l) (.vlist l2)
/-- Entrywise relation of two entry lists: same keys in the same positions,
values related by `SafePerm`. -/
inductive SafeEntries : List (PyKey × PyVal) → List (PyKey × PyVal) → Prop
  | nil : SafeEntries [] []
  | cons (k : PyKey) (v v2 : PyVal) (es es2 : List (PyKey × PyVal)) :
      SafePerm v v2 → SafeEntries es es2 →
      SafeEntries ((k, v) :: es) ((k, v2) :: es2)
end

mutual
/-- Representation invariant of real Python dicts: every mapping anywhere in
the value has pairwise distinct keys. -/
def wfKeysB : PyVal → Bool
  | .vdict es => decide ((es.map Prod.fst).Nodup) && wfEntriesB es
  | .vlist l => wfListB l
  | _ => true
/-- `wfKeysB` over the elements of a list. -/
def wfListB : List PyVal → Bool
  | [] => true
  | v :: vs => wfKeysB v && wfListB vs
/-- `wfKeysB` over the values of an entry list. -/
def wfEntriesB : List (PyKey × PyVal) → Bool
  | [] => true
  | (_, v) :: es => wfKeysB v && wfEntriesB es
end

instance : Inhabited NVal := ⟨.nnone⟩

/-- Generic form of the entry-value normalization loop shared by the two
implementations, parameterized by the value normalizer. -/
def entriesNormF (f : PyVal → Option NVal) : List (PyKey × PyVal) → Option (List (PyKey × NVal))
  | [] => some []
  | (k, v) :: es =>
    match f v with
    | none => none
    | some nv =>
      match entriesNormF f es with
      | none => none
      | some rest => some ((k, nv) :: rest)

/-- The normalized entry produced for `p` when the normalizer succeeds. -/
def entryNormMap (f : PyVal → Option NVal) (p : PyKey × PyVal) : PyKey × NVal :=
  (p.1, (f p.2).getD .nnone)

theorem tcrr_sum_helper (calls : List ToolCallInfo) (ws bt : Int) :
    (compute_tcrr_windowed calls ws bt).redundant_calls =
      ((compute_tcrr_windowed calls ws bt).window_redundant_calls : Int) +
        (compute_tcrr_windowed calls ws bt).batch_redundant_calls := by
  unfold compute_tcrr_windowed
  by_cases h : calls.isEmpty <;> simp [h]

theorem tcrr_rate_helper (calls : List ToolCallInfo) (ws bt : Int) :
    (compute_tcrr_windowed calls ws bt).redundancy_rate =
      if (compute_tcrr_windowed calls ws bt).total_calls = 0 then 0
      else ((compute_tcrr_windowed calls ws bt).redundant_calls : ℚ) /
        ((compute_tcrr_windowed calls ws bt).total_calls : ℚ) := by
  unfold compute_tcrr_windowed
  by_cases h : calls.isEmpty
  · simp [h]
  · have hlen : calls.length ≠ 0 := by
      cases calls
      · simp at h
      · simp
    simp [h, hlen]

/-- C2: for every call list and every window size and batch threshold, the
result of `compute_tcrr_windowed` satisfies `redundant_calls =
window_redundant_calls + batch_redundant_calls` (the two rules are counted
independently), `redundancy_ratio = redundant_calls / total_calls` when
`total_calls > 0` and `0.0` when it is `0`, and the empty input returns the
all-zero result without any exception or division fault. -/
theorem tcrr_counts_decompose :
    ∀ (tool_calls : List ToolCallInfo) (window_size batch_threshold : Int),
      ((compute_tcrr_windowed tool_calls window_size batch_threshold).redundant_calls =
        ((compute_tcrr_windowed tool_calls window_size batch_threshold).window_redundant_calls : Int) +
          (compute_tcrr_windowed tool_calls window_size batch_threshold).batch_redundant_calls) ∧
      ((compute_tcrr_windowed tool_calls window_size batch_threshold).redundancy_rate =
        if (compute_tcrr_windowed tool_calls window_size batch_threshold).total_calls = 0 then 0
        else ((compute_tcrr_windowed tool_calls window_size batch_threshold).redundant_calls : ℚ) /
          ((compute_tcrr_windowed tool_calls window_size batch_threshold).total_calls : ℚ)) ∧
      compute_tcrr_windowed [] window_size batch_threshold =
        { total_calls := 0
          redundant_calls := 0
          redundancy_rate := 0
          redundant_by_turn := []
          window_size := window_size
          window_redundant_calls := 0
          batch_redundant_calls := 0 } :=
  fun calls ws bt => ⟨tcrr_sum_helper calls ws bt, tcrr_rate_helper calls ws bt, rfl⟩

/-- C3: `pass_hat_k` fails (raises `ValueError`, modelled as `none`) exactly
when `num_trials < k`, and otherwise returns
`C(success_count, k) / C(num_trials, k)`; in particular
`pass_hat_k 4 3 2 = 3/6 = 0.5` and `pass_hat_k` with `num_trials = 2`,
`k = 3` fails. -/
theorem pass_hat_k_contract :
    ∀ n s k : Nat,
      ((pass_hat_k n s k = none) ↔ n < k) ∧
      (k ≤ n → pass_hat_k n s k =
        some ((Nat.choose s k : ℚ) / (Nat.choose n k : ℚ))) ∧
      pass_hat_k 4 3 2 = some (1 / 2) ∧
      (∀ s2, pass_hat_k 2 s2 3 = none) := by
  intro n s k
  refine ⟨?_, ?_, ?_, ?_⟩
  · unfold pass_hat_k
    split <;> simp_all
  · intro hk
    unfold pass_hat_k
    rw [if_neg (by omega)]
  · have h1 : Nat.choose 3 2 = 3 := rfl
    have h2 : Nat.choose 4 2 = 6 := rfl
    unfold pass_hat_k
    rw [if_neg (by omega), h1, h2]
    norm_num
  · intro s2
    unfold pass_hat_k
    rw [if_pos (by omega)]

theorem pass_hat_k_contract_witness :
    pass_hat_k 4 3 2 = some ((Nat.choose 3 2 : ℚ) / (Nat.choose 4 2 : ℚ)) :=
  (pass_hat_k_contract 4 3 2).2.1 (by omega)

/-- C6: two calls with the same name and identical arguments, one in
assistant turn 1 and one in assistant turn 2, with `window_size = 3` give
`total_calls = 2`, `window_redundant_calls = 1`, `batch_redundant_calls = 0`,
and `redundancy_ratio = 0.5`. -/
theorem tcrr_window_example :
    (compute_tcrr_windowed [exampleCall 1 "call1", exampleCall 2 "call2"] 3 2).total_calls = 2 ∧
    (compute_tcrr_windowed [exampleCall 1 "call1", exampleCall 2 "call2"] 3 2).window_redundant_calls = 1 ∧
    (compute_tcrr_windowed [exampleCall 1 "call1", exampleCall 2 "call2"] 3 2).batch_redundant_calls = 0 ∧
    (compute_tcrr_windowed [exampleCall 1 "call1", exampleCall 2 "call2"] 3 2).redundancy_rate = 1 / 2 := by
  refine ⟨by decide, by decide, by decide, ?_⟩
  rw [tcrr_rate_helper]
  have h1 : (compute_tcrr_windowed [exampleCall 1 "call1", exampleCall 2 "call2"] 3 2).total_calls = 2 := by decide
  have h2 : (compute_tcrr_windowed [exampleCall 1 "call1", exampleCall 2 "call2"] 3 2).redundant_calls = 1 := by decide
  rw [h1, h2]
  norm_num

/-- C7: three calls with the same name and identical arguments, all in
assistant turn 1, with `batch_threshold = 2` give `total_calls = 3`,
`batch_redundant_calls = 1` (only the count in excess of the threshold),
`window_redundant_calls = 0` (turn 1 has no prior turns in the window), and
`redundancy_ratio = 1/3`. -/
theorem tcrr_batch_example :
    (compute_tcrr_windowed [exampleCall 1 "c1", exampleCall 1 "c2", exampleCall 1 "c3"] 3 2).total_calls = 3 ∧
    (compute_tcrr_windowed [exampleCall 1 "c1", exampleCall 1 "c2", exampleCall 1 "c3"] 3 2).batch_redundant_calls = 1 ∧
    (compute_tcrr_windowed [exampleCall 1 "c1", exampleCall 1 "c2", exampleCall 1 "c3"] 3 2).window_redundant_calls = 0 ∧
    (compute_tcrr_windowed [exampleCall 1 "c1", exampleCall 1 "c2", exampleCall 1 "c3"] 3 2).redundancy_rate = 1 / 3 := by
  refine ⟨by decide, by decide, by decide, ?_⟩
  rw [tcrr_rate_helper]
  have h1 : (compute_tcrr_windowed [exampleCall 1 "c1", exampleCall 1 "c2", exampleCall 1 "c3"] 3 2).total_calls = 3 := by decide
  have h2 : (compute_tcrr_windowed [exampleCall 1 "c1", exampleCall 1 "c2", exampleCall 1 "c3"] 3 2).redundant_calls = 1 := by decide
  rw [h1, h2]
  norm_num

/-- C8: when the enhanced TSR estimator raises, `compute_metrics` reports a
TSR equal to the binary-success fallback (runs with strictly positive reward
divided by run count, 0 when there are no runs), zero channel breakdowns and
the default weights `communicate_info = 0.5, action = 0.3,
nl_assertion = 0.2`; the failure is swallowed inside the TSR block, so the
surrounding computation proceeds (the slice is a total function). -/
theorem tsr_fallback_isolation :
    ∀ sims : List SimRun,
      computeMetricsTsrSlice none sims =
        { tsr := specBinaryTSR sims
          tsr_communicate_info := 0
          tsr_action := 0
          tsr_nl_assertion := 0
          tsr_weights := default_tsr_weights } := by
  intro sims
  unfold computeMetricsTsrSlice specBinaryTSR
  cases sims with
  | nil => simp
  | cons a as => simp

/-- C10: `is_successful r` holds exactly when `1 - 1e-6 ≤ r ≤ 1 + 1e-6`; a
strictly positive reward below that band, such as `0.5`, is a failed trial
for pass^k grouping even though the binary-success TSR fallback counts any
strictly positive reward as a success. -/
theorem is_successful_band :
    (∀ r : ℚ, is_successful r = true ↔
      ((1 - 1 / 1000000 : ℚ) ≤ r ∧ r ≤ 1 + 1 / 1000000)) ∧
    is_successful (1 / 2) = false ∧
    simHasPositiveReward
      { task_id := "t", messages := [], reward_info := some ⟨some (1 / 2)⟩,
        agent_cost := none } = true := by
  refine ⟨?_, ?_, ?_⟩
  · intro r
    simp [is_successful]
  · rw [Bool.eq_false_iff]
    intro h
    simp only [is_successful, Bool.and_eq_true, decide_eq_true_eq] at h
    norm_num at h
  · simp only [simHasPositiveReward, safe_float, Option.getD, decide_eq_true_eq]
    norm_num

theorem tcrrEntries_isSome (es : List (PyKey × PyVal))
    (ih : ∀ p ∈ es, (tcrrValNorm p.2).isSome = !(valRaiseB p.2)) :
    (tcrrEntriesNorm es).isSome = !(entriesRaiseB es) := by
  induction es with
  | nil => simp [tcrrEntriesNorm, entriesRaiseB]
  | cons a as ihl =>
    obtain ⟨k, v⟩ := a
    have h1 := ih (k, v) (List.mem_cons_self _ as)
    have h2 := ihl (fun p hp => ih p (List.mem_cons_of_mem _ hp))
    simp only [tcrrEntriesNorm, entriesRaiseB]
    cases hv : tcrrValNorm v with
    | none =>
      rw [hv] at h1
      have h1' : valRaiseB v = true := by revert h1; cases valRaiseB v <;> simp
      simp [h1']
    | some nv =>
      rw [hv] at h1
      have h1' : valRaiseB v = false := by revert h1; cases valRaiseB v <;> simp
      cases he : tcrrEntriesNorm as with
      | none =>
        rw [he] at h2
        have h2' : entriesRaiseB as = true := by revert h2; cases entriesRaiseB as <;> simp
        simp [h1', h2']
      | some rest =>
        rw [he] at h2
        have h2' : entriesRaiseB as = false := by revert h2; cases entriesRaiseB as <;> simp
        simp [h1', h2']

theorem amEntries_isSome (es : List (PyKey × PyVal))
    (ih : ∀ p ∈ es, (amValNorm p.2).isSome = !(valRaiseB p.2)) :
    (amEntriesNorm es).isSome = !(entriesRaiseB es) := by
  induction es with
  | nil => simp [amEntriesNorm, entriesRaiseB]
  | cons a as ihl =>
    obtain ⟨k, v⟩ := a
    have h1 := ih (k, v) (List.mem_cons_self _ as)
    have h2 := ihl (fun p hp => ih p (List.mem_cons_of_mem _ hp))
    simp only [amEntriesNorm, entriesRaiseB]
    cases hv : amValNorm v with
    | none =>
      rw [hv] at h1
      have h1' : valRaiseB v = true := by revert h1; cases valRaiseB v <;> simp
      simp [h1']
    | some nv =>
      rw [hv] at h1
      have h1' : valRaiseB v = false := by revert h1; cases valRaiseB v <;> simp
      cases he : amEntriesNorm as with
      | none =>
        rw [he] at h2
        have h2' : entriesRaiseB as = true := by revert h2; cases entriesRaiseB as <;> simp
        simp [h1', h2']
      | some rest =>
        rw [he] at h2
        have h2' : entriesRaiseB as = false := by revert h2; cases entriesRaiseB as <;> simp
        simp [h1', h2']

theorem valNorm_isSome :
    ∀ v : PyVal,
      ((tcrrValNorm v).isSome = !(valRaiseB v)) ∧
      ((amValNorm v).isSome = !(valRaiseB v)) := by
  intro v
  induction v using pyValInd with
  | hint n => simp [tcrrValNorm, amValNorm, valRaiseB, embed]
  | hstr s => simp [tcrrValNorm, amValNorm, valRaiseB, embed]
  | hnone => simp [tcrrValNorm, amValNorm, valRaiseB, embed]
  | hlist l ih => simp [tcrrValNorm, amValNorm, valRaiseB]
  | hdict es ih =>
    have ht := tcrrEntries_isSome es (fun p hp => (ih p hp).1)
    have ha := amEntries_isSome es (fun p hp => (ih p hp).2)
    constructor
    · simp only [tcrrValNorm, valRaiseB]
      by_cases hk : KeysOrd es
      · rw [if_pos hk, decide_eq_true hk]
        simp only [Bool.not_true, Bool.false_or, dictWrap]
        cases he : tcrrEntriesNorm es with
        | none => rw [he] at ht; simpa using ht
        | some r => rw [he] at ht; simpa using ht
      · rw [if_neg hk, decide_eq_false hk]
        simp
    · simp only [amValNorm, valRaiseB]
      by_cases hk : KeysOrd es
      · rw [if_pos hk, decide_eq_true hk]
        simp only [Bool.not_true, Bool.false_or, dictWrap]
        cases he : amEntriesNorm es with
        | none => rw [he] at ha; simpa using ha
        | some r => rw [he] at ha; simpa using ha
      · rw [if_neg hk, decide_eq_false hk]
        simp

/-- C9 counterexample: the canonicalization functions can raise. tcrr's
`normalized_params` raises (`AttributeError`) on the non-mapping input `0`;
both versions raise (`TypeError`) on a mapping with the mixed-type keys
`1` and `"b"`; and agent_metrics' version also raises when such a mixed-key
mapping sits in a nested sub-mapping. -/
theorem canonicalization_raises_counterexample :
    tcrrNP (.vint 0) = none ∧
    tcrrNP (.vdict [(.kint 1, .vint 0), (.kstr "b", .vint 0)]) = none ∧
    amNP (.vdict [(.kint 1, .vint 0), (.kstr "b", .vint 0)]) = none ∧
    amNP (.vdict [(.kstr "a", .vdict [(.kint 1, .vnone), (.kstr "b", .vnone)])]) = none := by
  refine ⟨rfl, ?_, ?_, ?_⟩ <;> decide

/-- C9 amended: the canonicalization functions are not raise-free. tcrr's
`normalized_params` succeeds exactly on mappings none of whose nested
sub-mappings (reached through mapping values) has mixed-type keys, raising on
every non-mapping input and on every mixed-key mapping; agent_metrics'
version additionally accepts any non-mapping input (returning its `str`
rendering) but raises on exactly the same mixed-key mappings. List-sorting
failures inside list values are caught internally and never raise. -/
theorem normalized_params_raise_behavior :
    ∀ p : PyVal,
      ((tcrrNP p).isSome = !(tcrrRaisesB p)) ∧
      ((amNP p).isSome = !(amRaisesB p)) := by
  intro p
  cases p with
  | vdict es =>
    have h := valNorm_isSome (.vdict es)
    exact ⟨h.1, h.2⟩
  | vint n => exact ⟨rfl, rfl⟩
  | vstr s => exact ⟨rfl, rfl⟩
  | vnone => exact ⟨rfl, rfl⟩
  | vlist l => exact ⟨rfl, rfl⟩

theorem assistantCount_cons (m : Msg) (l : List Msg) :
    assistantCount (m :: l) = (if isAssistant m then 1 else 0) + assistantCount l := by
  unfold assistantCount
  rw [List.filter_cons]
  cases isAssistant m <;> simp [Nat.add_comm]

theorem range_succ_flatMap (g : Nat → List α) (n : Nat) :
    (List.range (n + 1)).flatMap g = g 0 ++ (List.range n).flatMap (fun i => g (i + 1)) := by
  rw [List.range_succ_eq_map]
  simp [List.flatMap_cons, List.flatMap_map, Function.comp]

theorem stampAt_zero (allMsgs : List Msg) (m : Msg) (ms : List Msg) (c : Nat) :
    stampAt allMsgs (m :: ms) c 0 =
      stampMsg allMsgs m (c + (if isAssistant m then 1 else 0)) := by
  unfold stampAt
  have h : assistantCount ((m :: ms).take 1) = if isAssistant m then 1 else 0 := by
    show (List.filter isAssistant [m]).length = _
    rw [List.filter_cons]
    cases isAssistant m <;> simp
  simp only [List.getElem?_cons_zero, h]

theorem stampAt_succ (allMsgs : List Msg) (m : Msg) (ms : List Msg) (c i : Nat) :
    stampAt allMsgs (m :: ms) c (i + 1) =
      stampAt allMsgs ms (c + (if isAssistant m then 1 else 0)) i := by
  unfold stampAt
  rw [List.getElem?_cons_succ, List.take_succ_cons, assistantCount_cons,
    ← Nat.add_assoc]

theorem extractAux_closed (allMsgs : List Msg) :
    ∀ (rest : List Msg) (c : Nat),
      extractAux allMsgs c rest = (List.range rest.length).flatMap (stampAt allMsgs rest c) := by
  intro rest
  induction rest with
  | nil => intro c; rfl
  | cons m ms ih =>
    intro c
    have hinc : (if isAssistant m then c + 1 else c) = c + (if isAssistant m then 1 else 0) := by
      cases isAssistant m <;> simp
    calc extractAux allMsgs c (m :: ms)
        = stampMsg allMsgs m (c + (if isAssistant m then 1 else 0)) ++
            extractAux allMsgs (c + (if isAssistant m then 1 else 0)) ms := by
          simp only [extractAux, hinc]; rfl
      _ = stampAt allMsgs (m :: ms) c 0 ++
            (List.range ms.length).flatMap (stampAt allMsgs ms (c + (if isAssistant m then 1 else 0))) := by
          rw [ih, stampAt_zero]
      _ = stampAt allMsgs (m :: ms) c 0 ++
            (List.range ms.length).flatMap (fun i => stampAt allMsgs (m :: ms) c (i + 1)) := by
          simp only [stampAt_succ]
      _ = (List.range (m :: ms).length).flatMap (stampAt allMsgs (m :: ms) c) := by
          rw [List.length_cons, range_succ_flatMap]

/-- C4: for every ordered message sequence the extractor's output is exactly
the closed form in which every tool call is stamped with the number of
assistant messages in the transcript prefix up to and including its carrying
message: the counter starts at 0, is incremented by exactly 1 on each
assistant message (before that message's own calls are stamped), a call
occurring before any assistant message receives assistant-turn index 0, and
every call attached to the first assistant message receives index 1. -/
theorem extractor_turn_indexing :
    ∀ msgs : List Msg, extract_tool_calls_with_turns msgs = turnsClosedForm msgs := by
  intro msgs
  unfold extract_tool_calls_with_turns turnsClosedForm
  exact extractAux_closed msgs msgs 0

theorem resultFlags_characterization (msgs : List Msg) (cid : String) :
    resultFlags msgs cid = (expectedCorrect msgs cid, expectedParamsValid msgs cid) := by
  have hempty : paramErrorKeywords.any (fun kw => strContains (toLowerStr "") kw) = false := by
    decide
  unfold resultFlags expectedCorrect expectedParamsValid
  cases h : lookupToolResult msgs cid with
  | none => rfl
  | some pr =>
    obtain ⟨err, content⟩ := pr
    cases err with
    | false => simp
    | true =>
      cases content with
      | none => simpa [contentTruthy] using hempty.symm
      | some s =>
        by_cases hs : s = ""
        · subst hs
          simpa [contentTruthy] using hempty.symm
        · simp [contentTruthy, hs]

theorem extractAux_flags (allMsgs : List Msg) :
    ∀ (rest : List Msg) (c : Nat), ∀ info ∈ extractAux allMsgs c rest,
      info.correct = expectedCorrect allMsgs info.call_id ∧
      info.params_valid = expectedParamsValid allMsgs info.call_id := by
  intro rest
  induction rest with
  | nil => intro c info h; cases h
  | cons m ms ih =>
    intro c info h
    rw [extractAux, List.mem_append] at h
    rcases h with h | h
    · rcases List.mem_map.mp h with ⟨tc, _, rfl⟩
      unfold mkInfo
      rw [resultFlags_characterization]
      exact ⟨rfl, rfl⟩
    · exact ih _ info h

theorem amExtract_pairs (allMsgs : List Msg) :
    ∀ rest : List Msg,
      amExtractAux allMsgs rest =
        (rest.flatMap (fun m => (msgToolCalls m).map (fun tc => (m, tc)))).map
          (fun mc => mkMetric allMsgs mc.1 mc.2) := by
  intro rest
  induction rest with
  | nil => rfl
  | cons m ms ih =>
    simp only [amExtractAux, List.flatMap_cons, List.map_append, List.map_map, ih]
    rfl

/-- C5: for every extracted tool call, in both extractors, the correctness
flag equals the correlated result's success flag (not error) when a result
with matching call id exists and is true when none exists, and the
parameter-validity flag is false exactly when the correlated result is an
error whose content contains, case-insensitively, one of the six fixed
keywords, being true otherwise; the agent_metrics extractor emits one record
per (message, call) pair with exactly these flags. -/
theorem extractor_flags :
    ∀ msgs : List Msg,
      (∀ info ∈ extract_tool_calls_with_turns msgs,
        info.correct = expectedCorrect msgs info.call_id ∧
        info.params_valid = expectedParamsValid msgs info.call_id) ∧
      (∀ mc ∈ msgCallPairs msgs,
        (mkMetric msgs mc.1 mc.2).correct = expectedCorrect msgs mc.2.id ∧
        (mkMetric msgs mc.1 mc.2).params_valid = expectedParamsValid msgs mc.2.id) ∧
      extract_tool_calls_from_messages msgs =
        (msgCallPairs msgs).map (fun mc => mkMetric msgs mc.1 mc.2) := by
  intro msgs
  refine ⟨fun info h => extractAux_flags msgs msgs 0 info h, ?_, amExtract_pairs msgs msgs⟩
  intro mc _
  unfold mkMetric
  rw [resultFlags_characterization]
  exact ⟨rfl, rfl⟩

/-- Concrete transcript used by the witness of the flags theorem: a user call
answered by a parameter error, and an assistant call answered successfully. -/
def witnessMsgs : List Msg :=
  [.user none none [⟨"c1", "pay", .vdict []⟩],
   .tool "c1" true (some "Invalid Parameter: missing account"),
   .assistant none none [⟨"c2", "pay", .vdict []⟩],
   .tool "c2" false (some "ok")]

theorem insertLe_perm (le : α → α → Bool) (a : α) (l : List α) :
    List.Perm (insertLe le a l) (a :: l) := by
  induction l with
  | nil => exact List.Perm.refl _
  | cons b bs ih =>
    unfold insertLe
    by_cases h : le a b
    · rw [if_pos h]
    · rw [if_neg h]
      exact (List.Perm.cons b ih).trans (List.Perm.swap a b bs)

theorem mem_insertLe (le : α → α → Bool) (a x : α) (l : List α) :
    x ∈ insertLe le a l ↔ x = a ∨ x ∈ l := by
  rw [(insertLe_perm le a l).mem_iff, List.mem_cons]

theorem sortLe_perm (le : α → α → Bool) : ∀ l : List α, List.Perm (sortLe le l) l := by
  intro l
  induction l with
  | nil => exact List.Perm.refl _
  | cons a as ih =>
    exact (insertLe_perm le a (sortLe le as)).trans (List.Perm.cons a ih)

theorem insertLe_pairwise (le : α → α → Bool) (P : α → Prop)
    (htot : ∀ x y, P x → P y → le x y = true ∨ le y x = true)
    (htrans : ∀ x y z, P x → P y → P z → le x y = true → le y z = true → le x z = true)
    (a : α) (ha : P a) :
    ∀ l : List α, (∀ x ∈ l, P x) → List.Pairwise (fun x y => le x y = true) l →
      List.Pairwise (fun x y => le x y = true) (insertLe le a l) := by
  intro l
  induction l with
  | nil => intro _ _; simp [insertLe]
  | cons b bs ih =>
    intro hP hp
    rw [List.pairwise_cons] at hp
    obtain ⟨hb, hbs⟩ := hp
    unfold insertLe
    by_cases h : le a b
    · rw [if_pos h, List.pairwise_cons]
      constructor
      · intro x hx
        rcases List.mem_cons.mp hx with rfl | hx'
        · exact h
        · exact htrans a b x ha (hP b (List.mem_cons_self _ _))
            (hP x (List.mem_cons_of_mem _ hx')) h (hb x hx')
      · exact List.pairwise_cons.mpr ⟨hb, hbs⟩
    · rw [if_neg h]
      have hba : le b a = true := by
        rcases htot a b ha (hP b (List.mem_cons_self _ _)) with h1 | h1
        · exact absurd h1 h
        · exact h1
      rw [List.pairwise_cons]
      constructor
      · intro x hx
        rcases (mem_insertLe le a x bs).mp hx with rfl | hx'
        · exact hba
        · exact hb x hx'
      · exact ih (fun x hx => hP x (List.mem_cons_of_mem _ hx)) hbs

theorem sortLe_pairwise (le : α → α → Bool) (P : α → Prop)
    (htot : ∀ x y, P x → P y → le x y = true ∨ le y x = true)
    (htrans : ∀ x y z, P x → P y → P z → le x y = true → le y z = true → le x z = true) :
    ∀ l : List α, (∀ x ∈ l, P x) →
      List.Pairwise (fun x y => le x y = true) (sortLe le l) := by
  intro l
  induction l with
  | nil => intro _; simp [sortLe]
  | cons a as ih =>
    intro hP
    apply insertLe_pairwise le P htot htrans a (hP a (List.mem_cons_self _ _))
    · intro x hx
      exact hP x (List.mem_cons_of_mem _ ((sortLe_perm le as).mem_iff.mp hx))
    · exact ih (fun x hx => hP x (List.mem_cons_of_mem _ hx))

theorem sorted_perm_eq (le : α → α → Bool) (P : α → Prop)
    (hanti : ∀ x y, P x → P y → le x y = true → le y x = true → x = y) :
    ∀ l l2 : List α, (∀ x ∈ l, P x) → List.Perm l l2 →
      List.Pairwise (fun x y => le x y = true) l →
      List.Pairwise (fun x y => le x y = true) l2 → l = l2 := by
  intro l
  induction l with
  | nil =>
    intro l2 _ hp _ _
    exact (hp.symm.eq_nil).symm
  | cons a as ih =>
    intro l2 hP hp hs1 hs2
    cases l2 with
    | nil => exact absurd hp.eq_nil (by simp)
    | cons b bs =>
      rw [List.pairwise_cons] at hs1 hs2
      have hamem : a ∈ b :: bs := hp.subset (List.mem_cons_self _ _)
      have hbmem : b ∈ a :: as := hp.symm.subset (List.mem_cons_self _ _)
      have hab : a = b := by
        rcases List.mem_cons.mp hamem with h1 | h1
        · exact h1
        · rcases List.mem_cons.mp hbmem with h2 | h2
          · exact h2.symm
          · exact hanti a b (hP a (List.mem_cons_self _ _)) (hP b (List.mem_cons_of_mem _ h2))
              (hs1.1 b h2) (hs2.1 a h1)
      subst hab
      rw [ih bs (fun x hx => hP x (List.mem_cons_of_mem _ hx)) hp.cons_inv hs1.2 hs2.2]

theorem sortLe_canonical (le : α → α → Bool) (P : α → Prop)
    (htot : ∀ x y, P x → P y → le x y = true ∨ le y x = true)
    (htrans : ∀ x y z, P x → P y → P z → le x y = true → le y z = true → le x z = true)
    (hanti : ∀ x y, P x → P y → le x y = true → le y x = true → x = y)
    (l l2 : List α) (hl : ∀ x ∈ l, P x) (hperm : List.Perm l l2) :
    sortLe le l = sortLe le l2 := by
  have hl2 : ∀ x ∈ l2, P x := fun x hx => hl x (hperm.symm.subset hx)
  apply sorted_perm_eq le P hanti
  · intro x hx
    exact hl x ((sortLe_perm le l).mem_iff.mp hx)
  · exact (sortLe_perm le l).trans (hperm.trans (sortLe_perm le l2).symm)
  · exact sortLe_pairwise le P htot htrans l hl
  · exact sortLe_pairwise le P htot htrans l2 hl2

theorem pairwise_of_mem_rel (R : α → α → Prop) :
    ∀ l : List α, (∀ x ∈ l, ∀ y ∈ l, R x y) → l.Pairwise R := by
  intro l
  induction l with
  | nil => intro _; exact .nil
  | cons a as ih =>
    intro h
    refine List.Pairwise.cons ?_ (ih ?_)
    · intro y hy
      exact h a (List.mem_cons_self _ _) y (List.mem_cons_of_mem _ hy)
    · intro x hx y hy
      exact h x (List.mem_cons_of_mem _ hx) y (List.mem_cons_of_mem _ hy)

theorem cmp3_lt_iff {α : Type} [LinearOrder α] (a b : α) : cmp3 a b = .lt ↔ a < b := by
  unfold cmp3
  rcases lt_trichotomy a b with h | h | h
  · rw [if_pos h]
    exact iff_of_true rfl h
  · subst h
    rw [if_neg (lt_irrefl a), if_neg (lt_irrefl a)]
    exact iff_of_false (by simp) (lt_irrefl a)
  · rw [if_neg (asymm h), if_pos h]
    exact iff_of_false (by simp) (asymm h)

theorem cmp3_eq_iff {α : Type} [LinearOrder α] (a b : α) : cmp3 a b = .eq ↔ a = b := by
  unfold cmp3
  rcases lt_trichotomy a b with h | h | h
  · rw [if_pos h]
    exact iff_of_false (by simp) (ne_of_lt h)
  · subst h
    rw [if_neg (lt_irrefl a), if_neg (lt_irrefl a)]
    exact iff_of_true rfl rfl
  · rw [if_neg (asymm h), if_pos h]
    exact iff_of_false (by simp) (ne_of_gt h)

theorem cmp3_swap {α : Type} [LinearOrder α] (a b : α) : cmp3 b a = (cmp3 a b).swap := by
  unfold cmp3
  rcases lt_trichotomy a b with h | h | h
  · rw [if_neg (asymm h), if_pos h, if_pos h]
    rfl
  · subst h
    rw [if_neg (lt_irrefl a), if_neg (lt_irrefl a)]
    rfl
  · rw [if_pos h, if_pos h, if_neg (asymm h)]
    rfl

theorem pyCompare_int (m n : Int) :
    pyCompare (.vint m) (.vint n) = some (cmp3 m n) := by
  unfold pyCompare cmp3
  by_cases h1 : m < n
  · simp [h1]
  · by_cases h2 : n < m
    · simp [h1, h2]
    · simp [h1, h2]

theorem pyCompare_str (s t : String) :
    pyCompare (.vstr s) (.vstr t) = some (cmp3 s t) := by
  unfold pyCompare cmp3
  by_cases h1 : s < t
  · simp [h1]
  · by_cases h2 : t < s
    · simp [h1, h2]
    · simp [h1, h2]

theorem nvalCompare_str (s t : String) :
    nvalCompare (.nstr s) (.nstr t) = some (cmp3 s t) := by
  unfold nvalCompare cmp3
  by_cases h1 : s < t
  · simp [h1]
  · by_cases h2 : t < s
    · simp [h1, h2]
    · simp [h1, h2]

theorem pyCompareList_cons_eq (a : PyVal) (as bs : List PyVal) :
    pyCompareList (a :: as) (a :: bs) = pyCompareList as bs := by
  simp [pyCompareList]

theorem pyCompareList_cons_ne {a b : PyVal} (h : a ≠ b) (as bs : List PyVal) :
    pyCompareList (a :: as) (b :: bs) = pyCompare a b := by
  simp [pyCompareList, h]

theorem pyCompareList_refl : ∀ l : List PyVal, pyCompareList l l = some .eq := by
  intro l
  induction l with
  | nil => rfl
  | cons a as ih => rw [pyCompareList_cons_eq, ih]

theorem pyCompareList_swap_of (lx : List PyVal)
    (ih : ∀ x ∈ lx, ∀ y o, pyCompare x y = some o → pyCompare y x = some o.swap) :
    ∀ ly o, pyCompareList lx ly = some o → pyCompareList ly lx = some o.swap := by
  induction lx with
  | nil =>
    intro ly o h
    cases ly with
    | nil =>
      obtain rfl : Ordering.eq = o := Option.some.inj h
      rfl
    | cons b bs =>
      obtain rfl : Ordering.lt = o := Option.some.inj h
      rfl
  | cons a as ihl =>
    intro ly o h
    cases ly with
    | nil =>
      obtain rfl : Ordering.gt = o := Option.some.inj h
      rfl
    | cons b bs =>
      by_cases hab : a = b
      · subst hab
        rw [pyCompareList_cons_eq] at h ⊢
        exact ihl (fun x hx => ih x (List.mem_cons_of_mem _ hx)) bs o h
      · rw [pyCompareList_cons_ne hab] at h
        rw [pyCompareList_cons_ne (Ne.symm hab)]
        exact ih a (List.mem_cons_self _ _) b o h

theorem pyCompare_swap : ∀ (x y : PyVal) (o : Ordering),
    pyCompare x y = some o → pyCompare y x = some o.swap := by
  intro x
  induction x using pyValInd with
  | hint m =>
    intro y o h
    cases y with
    | vint n =>
      rw [pyCompare_int] at h ⊢
      obtain rfl : cmp3 m n = o := Option.some.inj h
      rw [cmp3_swap]
    | vstr s => simp [pyCompare] at h
    | vnone => simp [pyCompare] at h
    | vlist l => simp [pyCompare] at h
    | vdict es => simp [pyCompare] at h
  | hstr s =>
    intro y o h
    cases y with
    | vint n => simp [pyCompare] at h
    | vstr t =>
      rw [pyCompare_str] at h ⊢
      obtain rfl : cmp3 s t = o := Option.some.inj h
      rw [cmp3_swap]
    | vnone => simp [pyCompare] at h
    | vlist l => simp [pyCompare] at h
    | vdict es => simp [pyCompare] at h
  | hnone =>
    intro y o h
    cases y <;> simp [pyCompare] at h
  | hlist lx ih =>
    intro y o h
    cases y with
    | vint n => simp [pyCompare] at h
    | vstr t => simp [pyCompare] at h
    | vnone => simp [pyCompare] at h
    | vlist ly => exact pyCompareList_swap_of lx ih ly o h
    | vdict es => simp [pyCompare] at h
  | hdict es =>
    intro y o h
    cases y <;> simp [pyCompare] at h

theorem pyCompareList_eq_of (lx : List PyVal)
    (ih : ∀ x ∈ lx, ∀ y, pyCompare x y = some .eq → x = y) :
    ∀ ly, pyCompareList lx ly = some .eq → lx = ly := by
  induction lx with
  | nil =>
    intro ly h
    cases ly with
    | nil => rfl
    | cons b bs => simp [pyCompareList] at h
  | cons a as ihl =>
    intro ly h
    cases ly with
    | nil => simp [pyCompareList] at h
    | cons b bs =>
      by_cases hab : a = b
      · subst hab
        rw [pyCompareList_cons_eq] at h
        rw [ihl (fun x hx => ih x (List.mem_cons_of_mem _ hx)) bs h]
      · rw [pyCompareList_cons_ne hab] at h
        exact absurd (ih a (List.mem_cons_self _ _) b h) hab

theorem pyCompare_eq_eq : ∀ (x y : PyVal), pyCompare x y = some .eq → x = y := by
  intro x
  induction x using pyValInd with
  | hint m =>
    intro y h
    cases y with
    | vint n =>
      rw [pyCompare_int] at h
      rw [(cmp3_eq_iff m n).mp (Option.some.inj h)]
    | vstr s => simp [pyCompare] at h
    | vnone => simp [pyCompare] at h
    | vlist l => simp [pyCompare] at h
    | vdict es => simp [pyCompare] at h
  | hstr s =>
    intro y h
    cases y with
    | vint n => simp [pyCompare] at h
    | vstr t =>
      rw [pyCompare_str] at h
      rw [(cmp3_eq_iff s t).mp (Option.some.inj h)]
    | vnone => simp [pyCompare] at h
    | vlist l => simp [pyCompare] at h
    | vdict es => simp [pyCompare] at h
  | hnone =>
    intro y h
    cases y <;> simp [pyCompare] at h
  | hlist lx ih =>
    intro y h
    cases y with
    | vint n => simp [pyCompare] at h
    | vstr t => simp [pyCompare] at h
    | vnone => simp [pyCompare] at h
    | vlist ly => rw [pyCompareList_eq_of lx ih ly h]
    | vdict es => simp [pyCompare] at h
  | hdict es =>
    intro y h
    cases y <;> simp [pyCompare] at h

theorem pyCompareList_trans_of (lx : List PyVal)
    (ih : ∀ x ∈ lx, ∀ y z, pyCompare x y = some .lt → pyCompare y z = some .lt →
      (pyCompare x z).isSome = true → pyCompare x z = some .lt) :
    ∀ ly lz, pyCompareList lx ly = some .lt → pyCompareList ly lz = some .lt →
      (pyCompareList lx lz).isSome = true → pyCompareList lx lz = some .lt := by
  induction lx with
  | nil =>
    intro ly lz h1 h2 _
    cases lz with
    | nil =>
      cases ly with
      | nil => simp [pyCompareList] at h1
      | cons b bs => simp [pyCompareList] at h2
    | cons c cs => rfl
  | cons a as ihl =>
    intro ly lz h1 h2 h3
    cases ly with
    | nil => simp [pyCompareList] at h1
    | cons b bs =>
      cases lz with
      | nil => simp [pyCompareList] at h2
      | cons c cs =>
        by_cases hab : a = b
        · subst hab
          rw [pyCompareList_cons_eq] at h1
          by_cases hac : a = c
          · subst hac
            rw [pyCompareList_cons_eq] at h2 h3 ⊢
            exact ihl (fun x hx => ih x (List.mem_cons_of_mem _ hx)) bs cs h1 h2 h3
          · rw [pyCompareList_cons_ne hac] at h2 ⊢
            exact h2
        · rw [pyCompareList_cons_ne hab] at h1
          by_cases hbc : b = c
          · subst hbc
            rw [pyCompareList_cons_ne hab]
            exact h1
          · rw [pyCompareList_cons_ne hbc] at h2
            by_cases hac : a = c
            · subst hac
              have hswap := pyCompare_swap a b .lt h1
              rw [h2] at hswap
              exact absurd hswap (by decide)
            · rw [pyCompareList_cons_ne hac] at h3 ⊢
              exact ih a (List.mem_cons_self _ _) b c h1 h2 h3

theorem pyCompare_trans_lt : ∀ (x y z : PyVal),
    pyCompare x y = some .lt → pyCompare y z = some .lt →
    (pyCompare x z).isSome = true → pyCompare x z = some .lt := by
  intro x
  induction x using pyValInd with
  | hint m =>
    intro y z h1 h2 _
    cases y with
    | vint n =>
      cases z with
      | vint p =>
        rw [pyCompare_int] at h1 h2 ⊢
        have g1 := (cmp3_lt_iff m n).mp (Option.some.inj h1)
        have g2 := (cmp3_lt_iff n p).mp (Option.some.inj h2)
        exact congrArg some ((cmp3_lt_iff m p).mpr (lt_trans g1 g2))
      | vstr s => simp [pyCompare] at h2
      | vnone => simp [pyCompare] at h2
      | vlist l => simp [pyCompare] at h2
      | vdict es => simp [pyCompare] at h2
    | vstr s => simp [pyCompare] at h1
    | vnone => simp [pyCompare] at h1
    | vlist l => simp [pyCompare] at h1
    | vdict es => simp [pyCompare] at h1
  | hstr s =>
    intro y z h1 h2 _
    cases y with
    | vstr t =>
      cases z with
      | vstr u =>
        rw [pyCompare_str] at h1 h2 ⊢
        have g1 := (cmp3_lt_iff s t).mp (Option.some.inj h1)
        have g2 := (cmp3_lt_iff t u).mp (Option.some.inj h2)
        exact congrArg some ((cmp3_lt_iff s u).mpr (lt_trans g1 g2))
      | vint n => simp [pyCompare] at h2
      | vnone => simp [pyCompare] at h2
      | vlist l => simp [pyCompare] at h2
      | vdict es => simp [pyCompare] at h2
    | vint n => simp [pyCompare] at h1
    | vnone => simp [pyCompare] at h1
    | vlist l => simp [pyCompare] at h1
    | vdict es => simp [pyCompare] at h1
  | hnone =>
    intro y z h1 h2 _
    cases y <;> simp [pyCompare] at h1
  | hlist lx ih =>
    intro y z h1 h2 h3
    cases y with
    | vlist ly =>
      cases z with
      | vlist lz => exact pyCompareList_trans_of lx ih ly lz h1 h2 h3
      | vint n => simp [pyCompare] at h2
      | vstr s => simp [pyCompare] at h2
      | vnone => simp [pyCompare] at h2
      | vdict es => simp [pyCompare] at h2
    | vint n => simp [pyCompare] at h1
    | vstr s => simp [pyCompare] at h1
    | vnone => simp [pyCompare] at h1
    | vdict es => simp [pyCompare] at h1
  | hdict es =>
    intro y z h1 h2 _
    cases y <;> simp [pyCompare] at h1

theorem leOfCompare_some {cmp : α → α → Option Ordering} {a b : α} {o : Ordering}
    (h : cmp a b = some o) : leOfCompare cmp a b = true ↔ o ≠ .gt := by
  unfold leOfCompare
  rw [h]
  cases o <;> simp

theorem pyComp_symm {x y : PyVal} (h : (pyCompare x y).isSome = true) :
    (pyCompare y x).isSome = true := by
  cases hc : pyCompare x y with
  | none => rw [hc] at h; simp at h
  | some o => rw [pyCompare_swap x y o hc]; rfl

theorem mutOrd_perm_py {l l2 : List PyVal} (hperm : List.Perm l l2)
    (ho : MutOrd pyCompare l) : MutOrd pyCompare l2 := by
  unfold MutOrd at ho ⊢
  refine (List.Perm.pairwise_iff ?_ hperm).mp ho
  intro a b hab
  exact pyComp_symm hab

theorem mutOrd_comp_pairs (l : List PyVal) (ho : MutOrd pyCompare l)
    (hrefl : ∀ x ∈ l, (pyCompare x x).isSome = true) :
    ∀ x ∈ l, ∀ y ∈ l, (pyCompare x y).isSome = true := by
  intro x hx y hy
  by_cases hxy : x = y
  · subst hxy
    exact hrefl x hx
  · exact List.Pairwise.forall (fun a b hab => pyComp_symm hab) ho hx hy hxy

theorem sortPy_canonical (l l2 : List PyVal)
    (hcomp : ∀ x ∈ l, ∀ y ∈ l, (pyCompare x y).isSome = true)
    (hperm : List.Perm l l2) :
    sortLe (leOfCompare pyCompare) l = sortLe (leOfCompare pyCompare) l2 := by
  apply sortLe_canonical _ (fun v => v ∈ l) ?_ ?_ ?_ l l2 (fun x hx => hx) hperm
  · intro x y hx hy
    cases hc : pyCompare x y with
    | none =>
      have h := hcomp x hx y hy
      rw [hc] at h
      simp at h
    | some o =>
      cases o with
      | lt => exact Or.inl ((leOfCompare_some hc).mpr (by decide))
      | eq => exact Or.inl ((leOfCompare_some hc).mpr (by decide))
      | gt => exact Or.inr ((leOfCompare_some (pyCompare_swap x y .gt hc)).mpr (by decide))
  · intro x y z hx hy hz h1 h2
    obtain ⟨o1, hc1⟩ := Option.isSome_iff_exists.mp (hcomp x hx y hy)
    obtain ⟨o2, hc2⟩ := Option.isSome_iff_exists.mp (hcomp y hy z hz)
    have ho1 : o1 ≠ .gt := (leOfCompare_some hc1).mp h1
    have ho2 : o2 ≠ .gt := (leOfCompare_some hc2).mp h2
    cases o1 with
    | gt => exact absurd rfl ho1
    | eq =>
      obtain rfl := pyCompare_eq_eq x y hc1
      exact h2
    | lt =>
      cases o2 with
      | gt => exact absurd rfl ho2
      | eq =>
        obtain rfl := pyCompare_eq_eq y z hc2
        exact h1
      | lt =>
        have h3 := hcomp x hx z hz
        exact (leOfCompare_some (pyCompare_trans_lt x y z hc1 hc2 h3)).mpr (by decide)
  · intro x y hx hy h1 h2
    obtain ⟨o, hc⟩ := Option.isSome_iff_exists.mp (hcomp x hx y hy)
    have ho1 : o ≠ .gt := (leOfCompare_some hc).mp h1
    have ho2 : o.swap ≠ .gt := (leOfCompare_some (pyCompare_swap x y o hc)).mp h2
    cases o with
    | lt => exact absurd rfl ho2
    | eq => exact pyCompare_eq_eq x y hc
    | gt => exact absurd rfl ho1

theorem mutOrd_classes (l : List PyVal) (ho : MutOrd pyCompare l) :
    (∀ v ∈ l, ∃ n, v = PyVal.vint n) ∨ (∀ v ∈ l, ∃ s, v = PyVal.vstr s) ∨
    (∀ v ∈ l, ∃ il, v = PyVal.vlist il) ∨ l.length ≤ 1 := by
  cases l with
  | nil => right; right; right; simp
  | cons a as =>
    cases as with
    | nil => right; right; right; simp
    | cons b bs =>
      unfold MutOrd at ho
      rw [List.pairwise_cons] at ho
      obtain ⟨hacomp, -⟩ := ho
      cases a with
      | vint n =>
        left
        intro v hv
        rcases List.mem_cons.mp hv with rfl | hv'
        · exact ⟨n, rfl⟩
        · have hc := hacomp v hv'
          cases v with
          | vint m => exact ⟨m, rfl⟩
          | vstr s => simp [pyCompare] at hc
          | vnone => simp [pyCompare] at hc
          | vlist il => simp [pyCompare] at hc
          | vdict es => simp [pyCompare] at hc
      | vstr s =>
        right; left
        intro v hv
        rcases List.mem_cons.mp hv with rfl | hv'
        · exact ⟨s, rfl⟩
        · have hc := hacomp v hv'
          cases v with
          | vint m => simp [pyCompare] at hc
          | vstr t => exact ⟨t, rfl⟩
          | vnone => simp [pyCompare] at hc
          | vlist il => simp [pyCompare] at hc
          | vdict es => simp [pyCompare] at hc
      | vnone =>
        have hc := hacomp b (List.mem_cons_self _ _)
        cases b <;> simp [pyCompare] at hc
      | vlist il =>
        right; right; left
        intro v hv
        rcases List.mem_cons.mp hv with rfl | hv'
        · exact ⟨il, rfl⟩
        · have hc := hacomp v hv'
          cases v with
          | vint m => simp [pyCompare] at hc
          | vstr t => simp [pyCompare] at hc
          | vnone => simp [pyCompare] at hc
          | vlist il2 => exact ⟨il2, rfl⟩
          | vdict es => simp [pyCompare] at hc
      | vdict es =>
        have hc := hacomp b (List.mem_cons_self _ _)
        cases b <;> simp [pyCompare] at hc

theorem strListCmp_cons_eq (s : String) (ss ts : List String) :
    strListCmp (s :: ss) (s :: ts) = strListCmp ss ts := by
  simp [strListCmp]

theorem strListCmp_cons_ne {s t : String} (h : s ≠ t) (ss ts : List String) :
    strListCmp (s :: ss) (t :: ts) = cmp3 s t := by
  simp [strListCmp, h]

theorem strListCmp_swap : ∀ ss ts : List String,
    strListCmp ts ss = (strListCmp ss ts).swap := by
  intro ss
  induction ss with
  | nil => intro ts; cases ts <;> rfl
  | cons s ss ih =>
    intro ts
    cases ts with
    | nil => rfl
    | cons t ts =>
      by_cases h : s = t
      · subst h
        rw [strListCmp_cons_eq, strListCmp_cons_eq]
        exact ih ts
      · rw [strListCmp_cons_ne (Ne.symm h), strListCmp_cons_ne h]
        exact cmp3_swap s t

theorem strListCmp_eq_iff : ∀ ss ts : List String, strListCmp ss ts = .eq ↔ ss = ts := by
  intro ss
  induction ss with
  | nil => intro ts; cases ts <;> simp [strListCmp]
  | cons s ss ih =>
    intro ts
    cases ts with
    | nil => simp [strListCmp]
    | cons t ts =>
      by_cases h : s = t
      · subst h
        rw [strListCmp_cons_eq]
        simp [ih]
      · rw [strListCmp_cons_ne h]
        simp [cmp3_eq_iff, h]

theorem strListCmp_trans_lt : ∀ ss ts us : List String,
    strListCmp ss ts = .lt → strListCmp ts us = .lt → strListCmp ss us = .lt := by
  intro ss
  induction ss with
  | nil =>
    intro ts us h1 h2
    cases us with
    | nil =>
      cases ts with
      | nil => simp [strListCmp] at h1
      | cons t ts => simp [strListCmp] at h2
    | cons u us => rfl
  | cons s ss ih =>
    intro ts us h1 h2
    cases ts with
    | nil => simp [strListCmp] at h1
    | cons t ts =>
      cases us with
      | nil => simp [strListCmp] at h2
      | cons u us =>
        by_cases hst : s = t
        · subst hst
          rw [strListCmp_cons_eq] at h1
          by_cases hsu : s = u
          · subst hsu
            rw [strListCmp_cons_eq] at h2 ⊢
            exact ih ts us h1 h2
          · rw [strListCmp_cons_ne hsu] at h2 ⊢
            exact h2
        · rw [strListCmp_cons_ne hst] at h1
          by_cases htu : t = u
          · subst htu
            rw [strListCmp_cons_ne hst]
            exact h1
          · rw [strListCmp_cons_ne htu] at h2
            by_cases hsu : s = u
            · subst hsu
              rw [cmp3_lt_iff] at h1 h2
              exact absurd h2 (asymm h1)
            · rw [strListCmp_cons_ne hsu]
              rw [cmp3_lt_iff] at h1 h2 ⊢
              exact lt_trans h1 h2

theorem nvalCompareList_cons_eq (a : NVal) (as bs : List NVal) :
    nvalCompareList (a :: as) (a :: bs) = nvalCompareList as bs := by
  simp [nvalCompareList]

theorem nvalCompareList_cons_ne {a b : NVal} (h : a ≠ b) (as bs : List NVal) :
    nvalCompareList (a :: as) (b :: bs) = nvalCompare a b := by
  simp [nvalCompareList, h]

theorem nvalCompareList_strs : ∀ ss ts : List String,
    nvalCompareList (ss.map NVal.nstr) (ts.map NVal.nstr) = some (strListCmp ss ts) := by
  intro ss
  induction ss with
  | nil => intro ts; cases ts <;> rfl
  | cons s ss ih =>
    intro ts
    cases ts with
    | nil => rfl
    | cons t ts =>
      by_cases h : s = t
      · subst h
        show nvalCompareList (NVal.nstr s :: ss.map NVal.nstr)
          (NVal.nstr s :: ts.map NVal.nstr) = _
        rw [nvalCompareList_cons_eq, strListCmp_cons_eq, ih]
      · have hne : NVal.nstr s ≠ NVal.nstr t := by simp [h]
        show nvalCompareList (NVal.nstr s :: ss.map NVal.nstr)
          (NVal.nstr t :: ts.map NVal.nstr) = _
        rw [nvalCompareList_cons_ne hne, nvalCompare_str, strListCmp_cons_ne h]

theorem nvalCompare_strTups (ss ts : List String) :
    nvalCompare (.ntup (ss.map .nstr)) (.ntup (ts.map .nstr)) = some (strListCmp ss ts) :=
  nvalCompareList_strs ss ts

theorem nvalLe_strtup (ss ts : List String) :
    leOfCompare nvalCompare (.ntup (ss.map .nstr)) (.ntup (ts.map .nstr)) = true ↔
      strListCmp ss ts ≠ .gt :=
  leOfCompare_some (nvalCompare_strTups ss ts)

theorem nvalLe_int (m n : Int) :
    leOfCompare nvalCompare (.nint m) (.nint n) = true ↔ m ≤ n := by
  unfold leOfCompare nvalCompare
  by_cases h1 : m < n
  · rw [if_pos h1]
    exact iff_of_true rfl (by omega)
  · by_cases h2 : n < m
    · rw [if_neg h1, if_pos h2]
      exact iff_of_false (by simp) (by omega)
    · rw [if_neg h1, if_neg h2]
      exact iff_of_true rfl (by omega)

theorem nvalLe_str (s t : String) :
    leOfCompare nvalCompare (.nstr s) (.nstr t) = true ↔ s ≤ t := by
  unfold leOfCompare nvalCompare
  by_cases h1 : s < t
  · rw [if_pos h1]
    exact iff_of_true rfl (le_of_lt h1)
  · by_cases h2 : t < s
    · rw [if_neg h1, if_pos h2]
      exact iff_of_false (by simp) (not_le.mpr h2)
    · rw [if_neg h1, if_neg h2]
      exact iff_of_true rfl (le_of_not_lt h2)

theorem tcrrItemsNorm_scalars (l : List PyVal) (hs : ∀ v ∈ l, isScalar v = true) :
    tcrrItemsNorm l = some (l.map embed) := by
  induction l with
  | nil => rfl
  | cons a as ih =>
    have ha := hs a (List.mem_cons_self _ _)
    have has := ih (fun v hv => hs v (List.mem_cons_of_mem _ hv))
    have hitem : tcrrItemNorm a = some (embed a) := by
      cases a <;> simp_all [isScalar, tcrrItemNorm]
    simp [tcrrItemsNorm, hitem, has]

theorem mutOrd_scalar_classes (l : List PyVal)
    (hs : ∀ v ∈ l, isScalar v = true) (ho : MutOrd pyCompare l) :
    (∀ v ∈ l, ∃ n, v = PyVal.vint n) ∨ (∀ v ∈ l, ∃ s, v = PyVal.vstr s) ∨ l.length ≤ 1 := by
  cases l with
  | nil => right; right; simp
  | cons a as =>
    cases as with
    | nil => right; right; simp
    | cons b bs =>
      unfold MutOrd at ho
      rw [List.pairwise_cons] at ho
      obtain ⟨hacomp, _⟩ := ho
      cases a with
      | vint n =>
        left
        intro v hv
        rcases List.mem_cons.mp hv with rfl | hv'
        · exact ⟨n, rfl⟩
        · have hcomp := hacomp v hv'
          have hsv := hs v (List.mem_cons_of_mem _ hv')
          cases v with
          | vint m => exact ⟨m, rfl⟩
          | vstr s => simp [pyCompare] at hcomp
          | vnone => simp [pyCompare] at hcomp
          | vlist l2 => simp [isScalar] at hsv
          | vdict es => simp [isScalar] at hsv
      | vstr s =>
        right; left
        intro v hv
        rcases List.mem_cons.mp hv with rfl | hv'
        · exact ⟨s, rfl⟩
        · have hcomp := hacomp v hv'
          have hsv := hs v (List.mem_cons_of_mem _ hv')
          cases v with
          | vint m => simp [pyCompare] at hcomp
          | vstr t => exact ⟨t, rfl⟩
          | vnone => simp [pyCompare] at hcomp
          | vlist l2 => simp [isScalar] at hsv
          | vdict es => simp [isScalar] at hsv
      | vnone =>
        have := hacomp b (List.mem_cons_self _ _)
        simp [pyCompare] at this
      | vlist l2 =>
        have := hs (.vlist l2) (List.mem_cons_self _ _)
        simp [isScalar] at this
      | vdict es =>
        have := hs (.vdict es) (List.mem_cons_self _ _)
        simp [isScalar] at this

theorem mutOrd_short (cmp : α → α → Option Ordering) (l : List α) (h : l.length ≤ 1) :
    MutOrd cmp l := by
  cases l with
  | nil => exact .nil
  | cons a as =>
    cases as with
    | nil => exact List.pairwise_cons.mpr ⟨(by intro y hy; cases hy), .nil⟩
    | cons b bs => simp at h

theorem mutOrd_nval_int (l : List PyVal) (hint : ∀ v ∈ l, ∃ n, v = PyVal.vint n) :
    MutOrd nvalCompare (l.map embed) := by
  unfold MutOrd
  rw [List.pairwise_map]
  apply pairwise_of_mem_rel
  intro x hx y hy
  obtain ⟨m, rfl⟩ := hint x hx
  obtain ⟨n, rfl⟩ := hint y hy
  simp [embed, nvalCompare]

theorem mutOrd_nval_str (l : List PyVal) (hstr : ∀ v ∈ l, ∃ s, v = PyVal.vstr s) :
    MutOrd nvalCompare (l.map embed) := by
  unfold MutOrd
  rw [List.pairwise_map]
  apply pairwise_of_mem_rel
  intro x hx y hy
  obtain ⟨s, rfl⟩ := hstr x hx
  obtain ⟨t, rfl⟩ := hstr y hy
  simp [embed, nvalCompare]

theorem perm_short_eq {l l2 : List α} (hperm : List.Perm l l2) (h : l.length ≤ 1) :
    l2 = l := by
  cases l with
  | nil => exact hperm.symm.eq_nil
  | cons a as =>
    cases as with
    | nil => exact List.perm_singleton.mp hperm.symm
    | cons b bs => simp at h

theorem slist_sort_eq_nval (l l2 : List PyVal) (hs : ∀ v ∈ l, isScalar v = true)
    (ho : MutOrd pyCompare l) (hperm : List.Perm l l2) :
    sortLe (leOfCompare nvalCompare) (l.map embed) =
      sortLe (leOfCompare nvalCompare) (l2.map embed) := by
  rcases mutOrd_scalar_classes l hs ho with hint | hstr | hlen
  · apply sortLe_canonical _ (fun x => ∃ n, x = NVal.nint n) ?_ ?_ ?_ _ _ ?_ (hperm.map embed)
    · rintro x y ⟨m, rfl⟩ ⟨n, rfl⟩
      rcases le_total m n with h | h
      · exact Or.inl ((nvalLe_int m n).mpr h)
      · exact Or.inr ((nvalLe_int n m).mpr h)
    · rintro x y z ⟨m, rfl⟩ ⟨n, rfl⟩ ⟨p, rfl⟩ h1 h2
      rw [nvalLe_int] at h1 h2 ⊢
      omega
    · rintro x y ⟨m, rfl⟩ ⟨n, rfl⟩ h1 h2
      rw [nvalLe_int] at h1 h2
      rw [le_antisymm h1 h2]
    · intro x hx
      rcases List.mem_map.mp hx with ⟨v, hv, rfl⟩
      obtain ⟨n, rfl⟩ := hint v hv
      exact ⟨n, rfl⟩
  · apply sortLe_canonical _ (fun x => ∃ s, x = NVal.nstr s) ?_ ?_ ?_ _ _ ?_ (hperm.map embed)
    · rintro x y ⟨s, rfl⟩ ⟨t, rfl⟩
      rcases le_total s t with h | h
      · exact Or.inl ((nvalLe_str s t).mpr h)
      · exact Or.inr ((nvalLe_str t s).mpr h)
    · rintro x y z ⟨s, rfl⟩ ⟨t, rfl⟩ ⟨u, rfl⟩ h1 h2
      rw [nvalLe_str] at h1 h2 ⊢
      exact le_trans h1 h2
    · rintro x y ⟨s, rfl⟩ ⟨t, rfl⟩ h1 h2
      rw [nvalLe_str] at h1 h2
      rw [le_antisymm h1 h2]
    · intro x hx
      rcases List.mem_map.mp hx with ⟨v, hv, rfl⟩
      obtain ⟨s, rfl⟩ := hstr v hv
      exact ⟨s, rfl⟩
  · rw [perm_short_eq hperm hlen]

theorem slist_tcrr_scalar_eq (l l2 : List PyVal) (hs : ∀ v ∈ l, isScalar v = true)
    (ho : MutOrd pyCompare l) (hperm : List.Perm l l2) :
    tcrrValNorm (.vlist l) = tcrrValNorm (.vlist l2) := by
  have hs2 : ∀ v ∈ l2, isScalar v = true := fun v hv => hs v (hperm.symm.subset hv)
  have h1 := tcrrItemsNorm_scalars l hs
  have h2 := tcrrItemsNorm_scalars l2 hs2
  have hmap : MutOrd nvalCompare (l.map embed) ∧ MutOrd nvalCompare (l2.map embed) := by
    rcases mutOrd_scalar_classes l hs ho with hint | hstr | hlen
    · exact ⟨mutOrd_nval_int l hint,
        mutOrd_nval_int l2 (fun v hv => hint v (hperm.symm.subset hv))⟩
    · exact ⟨mutOrd_nval_str l hstr,
        mutOrd_nval_str l2 (fun v hv => hstr v (hperm.symm.subset hv))⟩
    · have heq := perm_short_eq hperm hlen
      have hm := mutOrd_short nvalCompare (l.map embed) (by simpa using hlen)
      exact ⟨hm, by rw [heq]; exact hm⟩
  simp only [tcrrValNorm, h1, h2]
  unfold pySorted
  rw [if_pos hmap.1, if_pos hmap.2, slist_sort_eq_nval l l2 hs ho hperm]

theorem tcrrItemVal_list (il : List PyVal) :
    tcrrItemVal (.vlist il) = .ntup ((il.map pyStr).map .nstr) := by
  simp [tcrrItemVal, tcrrItemNorm, List.map_map, Function.comp]

theorem tcrrItemsNorm_some (l : List PyVal) (h : ∀ v ∈ l, (tcrrItemNorm v).isSome = true) :
    tcrrItemsNorm l = some (l.map tcrrItemVal) := by
  induction l with
  | nil => rfl
  | cons a as ih =>
    have ha := h a (List.mem_cons_self _ _)
    have has := ih (fun v hv => h v (List.mem_cons_of_mem _ hv))
    obtain ⟨n, hn⟩ := Option.isSome_iff_exists.mp ha
    simp [tcrrItemsNorm, hn, has, tcrrItemVal]

theorem slist_tcrr_lists_eq (l l2 : List PyVal)
    (hlst : ∀ v ∈ l, ∃ il, v = PyVal.vlist il) (hperm : List.Perm l l2) :
    tcrrValNorm (.vlist l) = tcrrValNorm (.vlist l2) := by
  have hlst2 : ∀ v ∈ l2, ∃ il, v = PyVal.vlist il :=
    fun v hv => hlst v (hperm.symm.subset hv)
  have hsome : ∀ v ∈ l, (tcrrItemNorm v).isSome = true := by
    intro v hv
    obtain ⟨il, rfl⟩ := hlst v hv
    rfl
  have hsome2 : ∀ v ∈ l2, (tcrrItemNorm v).isSome = true := by
    intro v hv
    obtain ⟨il, rfl⟩ := hlst2 v hv
    rfl
  have h1 := tcrrItemsNorm_some l hsome
  have h2 := tcrrItemsNorm_some l2 hsome2
  have hP : ∀ x ∈ l.map tcrrItemVal, ∃ ss : List String, x = NVal.ntup (ss.map .nstr) := by
    intro x hx
    obtain ⟨v, hv, rfl⟩ := List.mem_map.mp hx
    obtain ⟨il, rfl⟩ := hlst v hv
    exact ⟨il.map pyStr, tcrrItemVal_list il⟩
  have hP2 : ∀ x ∈ l2.map tcrrItemVal, ∃ ss : List String, x = NVal.ntup (ss.map .nstr) := by
    intro x hx
    obtain ⟨v, hv, rfl⟩ := List.mem_map.mp hx
    obtain ⟨il, rfl⟩ := hlst2 v hv
    exact ⟨il.map pyStr, tcrrItemVal_list il⟩
  have hm1 : MutOrd nvalCompare (l.map tcrrItemVal) := by
    apply pairwise_of_mem_rel
    intro x hx y hy
    obtain ⟨ss, rfl⟩ := hP x hx
    obtain ⟨ts, rfl⟩ := hP y hy
    rw [nvalCompare_strTups]
    rfl
  have hm2 : MutOrd nvalCompare (l2.map tcrrItemVal) := by
    apply pairwise_of_mem_rel
    intro x hx y hy
    obtain ⟨ss, rfl⟩ := hP2 x hx
    obtain ⟨ts, rfl⟩ := hP2 y hy
    rw [nvalCompare_strTups]
    rfl
  have hsort : sortLe (leOfCompare nvalCompare) (l.map tcrrItemVal) =
      sortLe (leOfCompare nvalCompare) (l2.map tcrrItemVal) := by
    apply sortLe_canonical _ (fun x => ∃ ss : List String, x = NVal.ntup (ss.map .nstr))
      ?_ ?_ ?_ _ _ hP (hperm.map tcrrItemVal)
    · rintro x y ⟨ss, rfl⟩ ⟨ts, rfl⟩
      by_cases hgt : strListCmp ss ts = .gt
      · refine Or.inr ((nvalLe_strtup ts ss).mpr ?_)
        rw [strListCmp_swap, hgt]
        decide
      · exact Or.inl ((nvalLe_strtup ss ts).mpr hgt)
    · rintro x y z ⟨ss, rfl⟩ ⟨ts, rfl⟩ ⟨us, rfl⟩ h1 h2
      rw [nvalLe_strtup] at h1 h2 ⊢
      cases hc1 : strListCmp ss ts with
      | gt => exact absurd hc1 h1
      | eq =>
        obtain rfl := (strListCmp_eq_iff ss ts).mp hc1
        exact h2
      | lt =>
        cases hc2 : strListCmp ts us with
        | gt => exact absurd hc2 h2
        | eq =>
          obtain rfl := (strListCmp_eq_iff ts us).mp hc2
          exact h1
        | lt =>
          rw [strListCmp_trans_lt ss ts us hc1 hc2]
          decide
    · rintro x y ⟨ss, rfl⟩ ⟨ts, rfl⟩ h1 h2
      rw [nvalLe_strtup] at h1 h2
      rw [strListCmp_swap] at h2
      cases hc : strListCmp ss ts with
      | gt => exact absurd hc h1
      | lt =>
        rw [hc] at h2
        exact absurd rfl h2
      | eq =>
        obtain rfl := (strListCmp_eq_iff ss ts).mp hc
        rfl
  simp only [tcrrValNorm, h1, h2]
  unfold pySorted
  rw [if_pos hm1, if_pos hm2, hsort]

theorem slist_tcrr_eq (l l2 : List PyVal)
    (ho : MutOrd pyCompare l) (hperm : List.Perm l l2) :
    tcrrValNorm (.vlist l) = tcrrValNorm (.vlist l2) := by
  rcases mutOrd_classes l ho with hint | hstr | hlst | hlen
  · exact slist_tcrr_scalar_eq l l2
      (fun v hv => by obtain ⟨n, rfl⟩ := hint v hv; rfl) ho hperm
  · exact slist_tcrr_scalar_eq l l2
      (fun v hv => by obtain ⟨s, rfl⟩ := hstr v hv; rfl) ho hperm
  · exact slist_tcrr_lists_eq l l2 hlst hperm
  · rw [perm_short_eq hperm hlen]

theorem slist_am_eq (l l2 : List PyVal)
    (ho : MutOrd pyCompare l) (hperm : List.Perm l l2) :
    amValNorm (.vlist l) = amValNorm (.vlist l2) := by
  by_cases hshort : l.length ≤ 1
  · rw [perm_short_eq hperm hshort]
  · have hrefl : ∀ x ∈ l, (pyCompare x x).isSome = true := by
      rcases mutOrd_classes l ho with hint | hstr | hlst | hlen
      · intro x hx
        obtain ⟨n, rfl⟩ := hint x hx
        rw [pyCompare_int]
        rfl
      · intro x hx
        obtain ⟨s, rfl⟩ := hstr x hx
        rw [pyCompare_str]
        rfl
      · intro x hx
        obtain ⟨il, rfl⟩ := hlst x hx
        have hr : pyCompare (.vlist il) (.vlist il) = some .eq := pyCompareList_refl il
        rw [hr]
        rfl
      · exact absurd hlen hshort
    have hcomp := mutOrd_comp_pairs l ho hrefl
    have ho2 := mutOrd_perm_py hperm ho
    simp only [amValNorm, amListBranch]
    unfold pySorted
    rw [if_pos ho, if_pos ho2, sortPy_canonical l l2 hcomp hperm]

theorem tcrrEntriesNorm_eq_F : ∀ es, tcrrEntriesNorm es = entriesNormF tcrrValNorm es := by
  intro es
  induction es with
  | nil => rfl
  | cons a as ih =>
    obtain ⟨k, v⟩ := a
    simp only [tcrrEntriesNorm, entriesNormF, ih]

theorem amEntriesNorm_eq_F : ∀ es, amEntriesNorm es = entriesNormF amValNorm es := by
  intro es
  induction es with
  | nil => rfl
  | cons a as ih =>
    obtain ⟨k, v⟩ := a
    simp only [amEntriesNorm, entriesNormF, ih]

theorem entriesNormF_congr (f : PyVal → Option NVal) :
    ∀ (es mid : List (PyKey × PyVal)),
      List.Forall₂ (fun p q => p.1 = q.1 ∧ f p.2 = f q.2) es mid →
      entriesNormF f es = entriesNormF f mid := by
  intro es
  induction es with
  | nil => intro mid h; cases h; rfl
  | cons a as ih =>
    intro mid h
    cases h with
    | cons hab hrest =>
      rename_i b bs
      obtain ⟨k, v⟩ := a
      obtain ⟨k2, v2⟩ := b
      obtain ⟨hk, hv⟩ := hab
      cases hk
      simp only [entriesNormF, hv, ih bs hrest]

theorem entriesNormF_some (f : PyVal → Option NVal) :
    ∀ es, (∀ p ∈ es, (f p.2).isSome = true) →
      entriesNormF f es = some (es.map (entryNormMap f)) := by
  intro es
  induction es with
  | nil => intro _; rfl
  | cons a as ih =>
    intro h
    obtain ⟨k, v⟩ := a
    have hv := h (k, v) (List.mem_cons_self _ _)
    cases hfv : f v with
    | none => rw [hfv] at hv; simp at hv
    | some nv =>
      simp only [entriesNormF, hfv, ih (fun p hp => h p (List.mem_cons_of_mem _ hp)),
        List.map_cons]
      simp [entryNormMap, hfv]

theorem entriesNormF_none (f : PyVal → Option NVal) :
    ∀ es, (∃ p ∈ es, f p.2 = none) → entriesNormF f es = none := by
  intro es
  induction es with
  | nil => rintro ⟨p, hp, _⟩; cases hp
  | cons a as ih =>
    rintro ⟨p, hp, hnone⟩
    obtain ⟨k, v⟩ := a
    rcases List.mem_cons.mp hp with rfl | hp'
    · simp [entriesNormF, hnone]
    · simp only [entriesNormF]
      cases hfv : f v
      · rfl
      · rw [ih ⟨p, hp', hnone⟩]

theorem keyCompare_symm (k1 k2 : PyKey) :
    (keyCompare k1 k2).isSome = (keyCompare k2 k1).isSome := by
  cases k1 <;> cases k2 <;> simp [keyCompare]

theorem keysOrd_iff_keys (es : List (PyKey × PyVal)) :
    KeysOrd es ↔
      List.Pairwise (fun k1 k2 => (keyCompare k1 k2).isSome = true) (es.map Prod.fst) := by
  unfold KeysOrd
  rw [List.pairwise_map]

theorem keysOrd_of_map_eq {es mid : List (PyKey × PyVal)}
    (h : es.map Prod.fst = mid.map Prod.fst) : KeysOrd es ↔ KeysOrd mid := by
  rw [keysOrd_iff_keys, keysOrd_iff_keys, h]

theorem keysOrd_of_perm {mid es2 : List (PyKey × PyVal)} (h : List.Perm mid es2) :
    KeysOrd mid ↔ KeysOrd es2 := by
  rw [keysOrd_iff_keys, keysOrd_iff_keys]
  refine List.Perm.pairwise_iff ?_ (h.map Prod.fst)
  intro x y hxy
  rw [show (keyCompare y x).isSome = (keyCompare x y).isSome from keyCompare_symm y x]
  exact hxy

theorem keyLe_int (m n : Int) :
    leOfCompare keyCompare (.kint m) (.kint n) = true ↔ m ≤ n := by
  simp only [leOfCompare, keyCompare]
  by_cases h1 : m < n
  · rw [if_pos h1]
    exact iff_of_true rfl (by omega)
  · by_cases h2 : n < m
    · rw [if_neg h1, if_pos h2]
      exact iff_of_false (by simp) (by omega)
    · rw [if_neg h1, if_neg h2]
      exact iff_of_true rfl (by omega)

theorem keyLe_str (s t : String) :
    leOfCompare keyCompare (.kstr s) (.kstr t) = true ↔ s ≤ t := by
  simp only [leOfCompare, keyCompare]
  by_cases h1 : s < t
  · rw [if_pos h1]
    exact iff_of_true rfl (le_of_lt h1)
  · by_cases h2 : t < s
    · rw [if_neg h1, if_pos h2]
      exact iff_of_false (by simp) (not_le.mpr h2)
    · rw [if_neg h1, if_neg h2]
      exact iff_of_true rfl (le_of_not_lt h2)

theorem keyLe_refl (k : PyKey) : leOfCompare keyCompare k k = true := by
  cases k with
  | kint n => exact (keyLe_int n n).mpr le_rfl
  | kstr s => exact (keyLe_str s s).mpr le_rfl

theorem nodup_keys_inj {β : Type} (l : List (PyKey × β)) (h : (l.map Prod.fst).Nodup) :
    ∀ p ∈ l, ∀ q ∈ l, p.1 = q.1 → p = q := by
  induction l with
  | nil => intro p hp; cases hp
  | cons a as ih =>
    intro p hp q hq hk
    rw [List.map_cons, List.nodup_cons] at h
    obtain ⟨hna, hnd⟩ := h
    rcases List.mem_cons.mp hp with rfl | hp'
    · rcases List.mem_cons.mp hq with rfl | hq'
      · rfl
      · have : p.1 ∈ as.map Prod.fst := by
          rw [hk]
          exact List.mem_map_of_mem Prod.fst hq'
        exact absurd this hna
    · rcases List.mem_cons.mp hq with rfl | hq'
      · have : q.1 ∈ as.map Prod.fst := by
          rw [← hk]
          exact List.mem_map_of_mem Prod.fst hp'
        exact absurd this hna
      · exact ih hnd p hp' q hq' hk

theorem keysOrd_classes (ks : List PyKey)
    (ho : List.Pairwise (fun k1 k2 => (keyCompare k1 k2).isSome = true) ks) :
    (∀ k ∈ ks, ∃ n, k = PyKey.kint n) ∨ (∀ k ∈ ks, ∃ s, k = PyKey.kstr s) ∨
      ks.length ≤ 1 := by
  cases ks with
  | nil => right; right; simp
  | cons a as =>
    cases as with
    | nil => right; right; simp
    | cons b bs =>
      rw [List.pairwise_cons] at ho
      obtain ⟨hacomp, _⟩ := ho
      cases a with
      | kint n =>
        left
        intro k hk
        rcases List.mem_cons.mp hk with rfl | hk'
        · exact ⟨n, rfl⟩
        · have := hacomp k hk'
          cases k with
          | kint m => exact ⟨m, rfl⟩
          | kstr s => simp [keyCompare] at this
      | kstr s =>
        right; left
        intro k hk
        rcases List.mem_cons.mp hk with rfl | hk'
        · exact ⟨s, rfl⟩
        · have := hacomp k hk'
          cases k with
          | kint m => simp [keyCompare] at this
          | kstr t => exact ⟨t, rfl⟩

theorem map_fst_entryNormMap (f : PyVal → Option NVal) (es : List (PyKey × PyVal)) :
    (es.map (entryNormMap f)).map Prod.fst = es.map Prod.fst := by
  rw [List.map_map]
  rfl

theorem forall₂_keys_eq {f : PyVal → Option NVal} :
    ∀ {es mid : List (PyKey × PyVal)},
      List.Forall₂ (fun p q => p.1 = q.1 ∧ f p.2 = f q.2) es mid →
      es.map Prod.fst = mid.map Prod.fst := by
  intro es mid h
  induction h with
  | nil => rfl
  | cons h1 _ ih => simp [List.map_cons, h1.1, ih]

theorem sorted_entries_canonical (mid es2 : List (PyKey × NVal))
    (hperm : List.Perm mid es2)
    (hnd : (mid.map Prod.fst).Nodup)
    (hord : List.Pairwise (fun k1 k2 => (keyCompare k1 k2).isSome = true) (mid.map Prod.fst)) :
    sortLe entryLeKey mid = sortLe entryLeKey es2 := by
  rcases keysOrd_classes (mid.map Prod.fst) hord with hint | hstr | hlen
  · apply sortLe_canonical entryLeKey (fun p => p ∈ mid) ?_ ?_ ?_ mid es2 (fun x hx => hx) hperm
    · intro x y hx hy
      obtain ⟨m, hxm⟩ := hint x.1 (List.mem_map_of_mem Prod.fst hx)
      obtain ⟨n, hyn⟩ := hint y.1 (List.mem_map_of_mem Prod.fst hy)
      unfold entryLeKey
      rw [hxm, hyn]
      rcases le_total m n with h | h
      · exact Or.inl ((keyLe_int m n).mpr h)
      · exact Or.inr ((keyLe_int n m).mpr h)
    · intro x y z hx hy hz h1 h2
      obtain ⟨m, hxm⟩ := hint x.1 (List.mem_map_of_mem Prod.fst hx)
      obtain ⟨n, hyn⟩ := hint y.1 (List.mem_map_of_mem Prod.fst hy)
      obtain ⟨p, hzp⟩ := hint z.1 (List.mem_map_of_mem Prod.fst hz)
      unfold entryLeKey at h1 h2 ⊢
      rw [hxm, hyn] at h1
      rw [hyn, hzp] at h2
      rw [hxm, hzp]
      rw [keyLe_int] at h1 h2 ⊢
      omega
    · intro x y hx hy h1 h2
      obtain ⟨m, hxm⟩ := hint x.1 (List.mem_map_of_mem Prod.fst hx)
      obtain ⟨n, hyn⟩ := hint y.1 (List.mem_map_of_mem Prod.fst hy)
      unfold entryLeKey at h1 h2
      rw [hxm, hyn] at h1
      rw [hyn, hxm] at h2
      rw [keyLe_int] at h1 h2
      have hk : x.1 = y.1 := by rw [hxm, hyn, le_antisymm h1 h2]
      exact nodup_keys_inj mid hnd x hx y hy hk
  · apply sortLe_canonical entryLeKey (fun p => p ∈ mid) ?_ ?_ ?_ mid es2 (fun x hx => hx) hperm
    · intro x y hx hy
      obtain ⟨s, hxs⟩ := hstr x.1 (List.mem_map_of_mem Prod.fst hx)
      obtain ⟨t, hyt⟩ := hstr y.1 (List.mem_map_of_mem Prod.fst hy)
      unfold entryLeKey
      rw [hxs, hyt]
      rcases le_total s t with h | h
      · exact Or.inl ((keyLe_str s t).mpr h)
      · exact Or.inr ((keyLe_str t s).mpr h)
    · intro x y z hx hy hz h1 h2
      obtain ⟨s, hxs⟩ := hstr x.1 (List.mem_map_of_mem Prod.fst hx)
      obtain ⟨t, hyt⟩ := hstr y.1 (List.mem_map_of_mem Prod.fst hy)
      obtain ⟨u, hzu⟩ := hstr z.1 (List.mem_map_of_mem Prod.fst hz)
      unfold entryLeKey at h1 h2 ⊢
      rw [hxs, hyt] at h1
      rw [hyt, hzu] at h2
      rw [hxs, hzu]
      rw [keyLe_str] at h1 h2 ⊢
      exact le_trans h1 h2
    · intro x y hx hy h1 h2
      obtain ⟨s, hxs⟩ := hstr x.1 (List.mem_map_of_mem Prod.fst hx)
      obtain ⟨t, hyt⟩ := hstr y.1 (List.mem_map_of_mem Prod.fst hy)
      unfold entryLeKey at h1 h2
      rw [hxs, hyt] at h1
      rw [hyt, hxs] at h2
      rw [keyLe_str] at h1 h2
      have hk : x.1 = y.1 := by rw [hxs, hyt, le_antisymm h1 h2]
      exact nodup_keys_inj mid hnd x hx y hy hk
  · have heq := perm_short_eq hperm (by simpa using hlen)
    rw [heq]

theorem dict_shape_eq (f : PyVal → Option NVal) (es mid es2 : List (PyKey × PyVal))
    (hf : List.Forall₂ (fun p q => p.1 = q.1 ∧ f p.2 = f q.2) es mid)
    (hperm : List.Perm mid es2)
    (hnd : (es.map Prod.fst).Nodup) :
    (if KeysOrd es then dictWrap (entriesNormF f es) else none) =
      (if KeysOrd es2 then dictWrap (entriesNormF f es2) else none) := by
  have hkeys := forall₂_keys_eq hf
  have hks1 := keysOrd_of_map_eq hkeys
  have hks2 := keysOrd_of_perm hperm
  by_cases hk : KeysOrd es
  · have hkmid := hks1.mp hk
    have hk2 := hks2.mp hkmid
    rw [if_pos hk, if_pos hk2, entriesNormF_congr f es mid hf]
    by_cases hall : ∀ p ∈ mid, (f p.2).isSome = true
    · have hall2 : ∀ p ∈ es2, (f p.2).isSome = true := fun p hp =>
        hall p (hperm.symm.subset hp)
      have hsort : sortLe entryLeKey (mid.map (entryNormMap f)) =
          sortLe entryLeKey (es2.map (entryNormMap f)) := by
        apply sorted_entries_canonical
        · exact hperm.map _
        · rw [map_fst_entryNormMap, ← hkeys]
          exact hnd
        · rw [map_fst_entryNormMap]
          exact (keysOrd_iff_keys mid).mp hkmid
      rw [entriesNormF_some f mid hall, entriesNormF_some f es2 hall2]
      show some (NVal.ntup ((sortLe entryLeKey (mid.map (entryNormMap f))).map entryTup)) =
        some (NVal.ntup ((sortLe entryLeKey (es2.map (entryNormMap f))).map entryTup))
      rw [hsort]
    · push_neg at hall
      obtain ⟨p, hp, hnone⟩ := hall
      have hnone' : f p.2 = none := by
        cases hfp : f p.2
        · rfl
        · rw [hfp] at hnone
          simp at hnone
      have h2 : ∃ q ∈ es2, f q.2 = none := ⟨p, hperm.subset hp, hnone'⟩
      rw [entriesNormF_none f mid ⟨p, hp, hnone'⟩, entriesNormF_none f es2 h2]
  · rw [if_neg hk, if_neg (fun h2 => hk (hks1.mpr (hks2.mpr h2)))]

theorem wf_dict_nodup {es : List (PyKey × PyVal)} (h : wfKeysB (.vdict es) = true) :
    (es.map Prod.fst).Nodup := by
  simp only [wfKeysB, Bool.and_eq_true, decide_eq_true_eq] at h
  exact h.1

theorem wf_dict_entries {es : List (PyKey × PyVal)} (h : wfKeysB (.vdict es) = true) :
    wfEntriesB es = true := by
  simp only [wfKeysB, Bool.and_eq_true] at h
  exact h.2

theorem wfEntries_head {k : PyKey} {v : PyVal} {es : List (PyKey × PyVal)}
    (h : wfEntriesB ((k, v) :: es) = true) :
    wfKeysB v = true ∧ wfEntriesB es = true := by
  simp only [wfEntriesB, Bool.and_eq_true] at h
  exact h

mutual
theorem safePerm_norm_eq : ∀ {a b : PyVal}, SafePerm a b → wfKeysB a = true →
    tcrrValNorm a = tcrrValNorm b ∧ amValNorm a = amValNorm b
  | _, _, .refl _, _ => ⟨rfl, rfl⟩
  | _, _, .dict es mid es2 hse hperm, hwf => by
      have hf := safeEntries_norm hse (wf_dict_entries hwf)
      have hnd := wf_dict_nodup hwf
      have hft : List.Forall₂
          (fun p q => p.1 = q.1 ∧ tcrrValNorm p.2 = tcrrValNorm q.2) es mid :=
        hf.imp (fun _ _ h => ⟨h.1, h.2.1⟩)
      have hfa : List.Forall₂
          (fun p q => p.1 = q.1 ∧ amValNorm p.2 = amValNorm q.2) es mid :=
        hf.imp (fun _ _ h => ⟨h.1, h.2.2⟩)
      constructor
      · have h1 : tcrrValNorm (.vdict es) =
            (if KeysOrd es then dictWrap (entriesNormF tcrrValNorm es) else none) := by
          rw [show tcrrValNorm (.vdict es) =
            (if KeysOrd es then dictWrap (tcrrEntriesNorm es) else none) from rfl,
            tcrrEntriesNorm_eq_F]
        have h2 : tcrrValNorm (.vdict es2) =
            (if KeysOrd es2 then dictWrap (entriesNormF tcrrValNorm es2) else none) := by
          rw [show tcrrValNorm (.vdict es2) =
            (if KeysOrd es2 then dictWrap (tcrrEntriesNorm es2) else none) from rfl,
            tcrrEntriesNorm_eq_F]
        rw [h1, h2]
        exact dict_shape_eq tcrrValNorm es mid es2 hft hperm hnd
      · have h1 : amValNorm (.vdict es) =
            (if KeysOrd es then dictWrap (entriesNormF amValNorm es) else none) := by
          rw [show amValNorm (.vdict es) =
            (if KeysOrd es then dictWrap (amEntriesNorm es) else none) from rfl,
            amEntriesNorm_eq_F]
        have h2 : amValNorm (.vdict es2) =
            (if KeysOrd es2 then dictWrap (entriesNormF amValNorm es2) else none) := by
          rw [show amValNorm (.vdict es2) =
            (if KeysOrd es2 then dictWrap (amEntriesNorm es2) else none) from rfl,
            amEntriesNorm_eq_F]
        rw [h1, h2]
        exact dict_shape_eq amValNorm es mid es2 hfa hperm hnd
  | _, _, .slist l l2 ho hperm, _ =>
      ⟨slist_tcrr_eq l l2 ho hperm, slist_am_eq l l2 ho hperm⟩
theorem safeEntries_norm : ∀ {es mid : List (PyKey × PyVal)}, SafeEntries es mid →
    wfEntriesB es = true →
    List.Forall₂
      (fun p q => p.1 = q.1 ∧ tcrrValNorm p.2 = tcrrValNorm q.2 ∧
        amValNorm p.2 = amValNorm q.2) es mid
  | _, _, .nil, _ => .nil
  | _, _, .cons _ v _ _ _ hv hes, hwf => by
      have h := wfEntries_head hwf
      have hval := safePerm_norm_eq hv h.1
      exact List.Forall₂.cons ⟨rfl, hval.1, hval.2⟩ (safeEntries_norm hes h.2)
end

theorem extractor_flags_witness :
    ({ name := "pay", params := .vdict [], turn_idx := 0, assistant_turn_idx := 0,
       call_id := "c1", correct := false, params_valid := false } : ToolCallInfo).correct =
        expectedCorrect witnessMsgs "c1" ∧
    ({ name := "pay", params := .vdict [], turn_idx := 0, assistant_turn_idx := 0,
       call_id := "c1", correct := false, params_valid := false } : ToolCallInfo).params_valid =
        expectedParamsValid witnessMsgs "c1" :=
  (extractor_flags witnessMsgs).1
    { name := "pay", params := .vdict [], turn_idx := 0, assistant_turn_idx := 0,
      call_id := "c1", correct := false, params_valid := false }
    (by decide)

/-- C1 counterexample: reordering the mutually-orderable list `[2, 1]` nested
inside the list value of the mapping with key `"k"` is a permutation the
claim covers (a reordering of an orderable list value at nesting depth two),
yet both implementations of `normalized_params` return different results for
the two orderings: both keep the inner list order-dependently (tcrr turns it
into a tuple of `str` renderings in original order, agent_metrics keeps the
raw inner list after sorting the singleton outer list). -/
theorem canonicalization_invariance_counterexample :
    SpecPerm (.vdict [(.kstr "k", .vlist [.vlist [.vint 2, .vint 1]])])
      (.vdict [(.kstr "k", .vlist [.vlist [.vint 1, .vint 2]])]) ∧
    MutOrd pyCompare [PyVal.vint 2, PyVal.vint 1] ∧
    tcrrNP (.vdict [(.kstr "k", .vlist [.vlist [.vint 2, .vint 1]])]) ≠
      tcrrNP (.vdict [(.kstr "k", .vlist [.vlist [.vint 1, .vint 2]])]) ∧
    amNP (.vdict [(.kstr "k", .vlist [.vlist [.vint 2, .vint 1]])]) ≠
      amNP (.vdict [(.kstr "k", .vlist [.vlist [.vint 1, .vint 2]])]) := by
  refine ⟨?_, by decide, by decide, by decide⟩
  exact SpecPerm.dictCongr _ _
    (SpecEntries.cons _ _ _ _ _
      (SpecPerm.listCongr _ _
        (SpecList.cons _ _ _ _
          (SpecPerm.listReorder _ _ (by decide)
            (List.Perm.swap (PyVal.vint 1) (PyVal.vint 2) []))
          SpecList.nil))
      SpecEntries.nil)

/-- C1 amended: both implementations are canonicalization-invariant on the
permutations they do support: permuting the entries of the argument mapping
and, recursively, of any mapping reached through mapping values, and
reordering any list value with mutually-orderable elements — all ints, all
strings, or pairwise-comparable lists, scalar or not — sitting directly under
a mapping (`SafePerm`), provided every mapping has distinct keys (which real
Python dicts guarantee); invariance does not extend to lists nested inside
list values (see the counterexample). -/
theorem canonicalization_safe_invariance :
    ∀ (es es2 : List (PyKey × PyVal)),
      SafePerm (.vdict es) (.vdict es2) → wfKeysB (.vdict es) = true →
      tcrrNP (.vdict es) = tcrrNP (.vdict es2) ∧
      amNP (.vdict es) = amNP (.vdict es2) := by
  intro es es2 h hwf
  exact safePerm_norm_eq h hwf

theorem canonicalization_safe_invariance_witness :
    tcrrNP (.vdict [(.kstr "b", .vint 1),
        (.kstr "a", .vlist [.vlist [.vint 3], .vlist [.vint 1, .vint 2]])]) =
      tcrrNP (.vdict [(.kstr "a", .vlist [.vlist [.vint 1, .vint 2], .vlist [.vint 3]]),
        (.kstr "b", .vint 1)]) ∧
    amNP (.vdict [(.kstr "b", .vint 1),
        (.kstr "a", .vlist [.vlist [.vint 3], .vlist [.vint 1, .vint 2]])]) =
      amNP (.vdict [(.kstr "a", .vlist [.vlist [.vint 1, .vint 2], .vlist [.vint 3]]),
        (.kstr "b", .vint 1)]) :=
  canonicalization_safe_invariance _ _
    (SafePerm.dict _
      [(.kstr "b", .vint 1),
        (.kstr "a", .vlist [.vlist [.vint 1, .vint 2], .vlist [.vint 3]])] _
      (SafeEntries.cons _ _ _ _ _ (SafePerm.refl _)
        (SafeEntries.cons _ _ _ _ _
          (SafePerm.slist _ _ (by decide)
            (List.Perm.swap (PyVal.vlist [.vint 1, .vint 2]) (PyVal.vlist [.vint 3]) []))
          SafeEntries.nil))
      (List.Perm.swap (PyKey.kstr "a", PyVal.vlist [.vlist [.vint 1, .vint 2], .vlist [.vint 3]])
        (PyKey.kstr "b", PyVal.vint 1) []))
    (by decide)

end ACB
